import Mathlib

/-!
Verification of the conduit SSH tunnel manager (pperesbr/conduit).

Shallow embedding of the Go source:
* `internal/config` — configuration data model, `Load` (environment
  expansion via Go `os.ExpandEnv`) and `Config.Validate`;
* `internal/manager` — the `Manager` registry with `Add`, `Remove`,
  `Start`, `Stop`, `Restart`, `StartAll`, `StopAll`, `Reconcile`,
  `Close` and the auto-restart supervisor bookkeeping;
* `internal/watcher` — the reload path that feeds `Reconcile`.

Go maps are embedded as Mathlib `AList`s keyed by strings: a map read
`v, ok := m[k]` is `lookup`, a map write `m[k] = v` is `insert`
(pointwise the same semantics: the new binding shadows any old one),
and `delete(m, k)` is `erase`.  The supervisor channel map
`tunnelDones` only matters through its domain, so it is embedded as the
list of names holding a live supervisor channel.

The tunnel engine itself lives in the external `gokit/pkg/tunnel`
package whose source is not part of this repository; its behaviour is
modelled from the spec (§3, §4.1) with the outcomes of the
I/O-dependent operations (listener bind, stop) supplied by an explicit
`Env` oracle keyed by tunnel name.
-/

namespace Conduit

/-- Set-style insert for a list of names: the domain change of storing a
fresh supervisor channel under `k` (after closing any previous one). -/
def insertS (l : List String) (k : String) : List String :=
  if k ∈ l then l else l ++ [k]

/-- Set-style delete for a list of names: the domain change of
`close(done); delete(m.tunnelDones, k)`. -/
def eraseS (l : List String) (k : String) : List String :=
  l.filter (fun n => ¬ n = k)

/-! ## Data model (`internal/config`, gokit `tunnel.SSHConfig`) -/

/-- Tunnel status (gokit `pkg/tunnel`).  Modelled from the spec: §3
`TunnelStatus` is the enumeration `{Stopped, Starting, Running, Error}`
with initial value `Stopped`. -/
inductive Status where
  | stopped
  | starting
  | running
  | error
deriving DecidableEq

/-- Embedding of `config.AutoRestartConfig`.  The interval is a Go `time.Duration`
(an `int64` count of nanoseconds), embedded as `Int`. -/
structure AutoRestartConfig where
  enabled : Bool
  interval : Int
deriving DecidableEq

/-- Embedding of `config.TunnelConfig`. -/
structure TunnelConfig where
  name : String
  remoteHost : String
  remotePort : Int
  localPort : Int
  autoRestart : AutoRestartConfig
deriving DecidableEq

/-- The zero value of `config.TunnelConfig`, produced by a Go map read
of a missing key (`cfg, _ := m.configs[name]`). -/
def zeroTunnelConfig : TunnelConfig :=
  { name := "", remoteHost := "", remotePort := 0, localPort := 0,
    autoRestart := { enabled := false, interval := 0 } }

/-- SSH connection parameters (gokit `tunnel.SSHConfig`).  Modelled from
the spec: §3 — user, host, port, one of password / private-key file
path, optional known-hosts file path. -/
structure SSHConfig where
  user : String
  host : String
  port : Int
  password : String
  keyFile : String
  knownHostsFile : String
deriving DecidableEq

/-- Embedding of `config.Config`: the declarative document. -/
structure Config where
  ssh : SSHConfig
  tunnelConfigs : List TunnelConfig
deriving DecidableEq

/-! ## Validation (`internal/config` `Config.Validate`) -/

/-- The validation failures of `Config.Validate`, one constructor per
`fmt.Errorf` site, carrying exactly the data interpolated into the
message. -/
inductive ValidateError where
  | sshInvalid (msg : String)
  | noTunnels
  | nameRequired (i : Nat)
  | duplicateName (name : String)
  | remoteHostRequired (i : Nat)
  | remotePortInvalid (i : Nat)
  | localPortInvalid (i : Nat)
  | duplicateLocalPort (port : Int)
  | autoRestartIntervalInvalid (i : Nat)
deriving DecidableEq

/-- The error strings of `Config.Validate`, rendered as in the Go source. -/
def ValidateError.message : ValidateError → String
  | .sshInvalid msg => "ssh: " ++ msg
  | .noTunnels => "at least one tunnel is required"
  | .nameRequired i => "tunnels[" ++ toString i ++ "].name is required"
  | .duplicateName name => "duplicate tunnel name: " ++ name
  | .remoteHostRequired i => "tunnels[" ++ toString i ++ "].remoteHost is required"
  | .remotePortInvalid i => "tunnels[" ++ toString i ++ "].remotePort must be greater than 0"
  | .localPortInvalid i => "tunnels[" ++ toString i ++ "].localPort must be greater than 0"
  | .duplicateLocalPort p => "duplicate localPort: " ++ toString p
  | .autoRestartIntervalInvalid i =>
      "tunnels[" ++ toString i ++ "].autoRestart.interval must be greater than 0 when enabled"

/-- Whether a validation failure message names the offending tunnel by
index or by name (true for the five indexed messages and the
duplicate-name message; false for the ssh, empty-list and
duplicate-localPort messages). -/
def ValidateError.identifiesTunnel : ValidateError → Bool
  | .nameRequired _ => true
  | .duplicateName _ => true
  | .remoteHostRequired _ => true
  | .remotePortInvalid _ => true
  | .localPortInvalid _ => true
  | .autoRestartIntervalInvalid _ => true
  | .sshInvalid _ => false
  | .noTunnels => false
  | .duplicateLocalPort _ => false

/-- Modelled from the spec: gokit `SSHConfig.Validate` (its source is
not in this repository); §4.5 — `user` and `host` non-empty; at least
one of `password` or `keyFile` set. -/
def SSHConfig.Validate (c : SSHConfig) : Option String :=
  if c.user = "" then some ("user is required")
  else if c.host = "" then some ("host is required")
  else if c.password = "" ∧ c.keyFile = "" then some ("password or keyFile is required")
  else none

/-- The per-tunnel loop of `Config.Validate`: `i` is the index, `names`
and `localPorts` the accumulated seen-sets. -/
def validateTunnels : Nat → List String → List Int → List TunnelConfig → Option ValidateError
  | _, _, _, [] => none
  | i, names, ports, t :: rest =>
    if t.name = "" then some (.nameRequired i)
    else if t.name ∈ names then some (.duplicateName t.name)
    else if t.remoteHost = "" then some (.remoteHostRequired i)
    else if t.remotePort ≤ 0 then some (.remotePortInvalid i)
    else if t.localPort ≤ 0 then some (.localPortInvalid i)
    else if t.localPort ∈ ports then some (.duplicateLocalPort t.localPort)
    else if t.autoRestart.enabled = true ∧ t.autoRestart.interval ≤ 0 then
      some (.autoRestartIntervalInvalid i)
    else validateTunnels (i + 1) (t.name :: names) (t.localPort :: ports) rest

/-- Embedding of `Config.Validate`: ssh section, non-empty tunnel list, then the
per-tunnel checks in source order. -/
def Config.Validate (c : Config) : Option ValidateError :=
  match c.ssh.Validate with
  | some msg => some (.sshInvalid msg)
  | none =>
    if c.tunnelConfigs = [] then some .noTunnels
    else validateTunnels 0 [] [] c.tunnelConfigs

/-- The per-tunnel-entry conditions of claim C7, written from the
spec's words (§4.5): name non-empty and unique, remoteHost non-empty,
remotePort > 0, localPort > 0 and unique, interval > 0 when
auto-restart is enabled. -/
def tunnelOk (t : TunnelConfig) : Prop :=
  ¬ t.name = "" ∧ ¬ t.remoteHost = "" ∧ t.remotePort > 0 ∧ t.localPort > 0 ∧
    (t.autoRestart.enabled = true → t.autoRestart.interval > 0)

instance (t : TunnelConfig) : Decidable (tunnelOk t) := by
  unfold tunnelOk
  infer_instance

def TunnelEntriesOk (c : Config) : Prop :=
  (∀ t ∈ c.tunnelConfigs, tunnelOk t)
  ∧ (c.tunnelConfigs.map TunnelConfig.name).Nodup
  ∧ (c.tunnelConfigs.map TunnelConfig.localPort).Nodup

instance (c : Config) : Decidable (TunnelEntriesOk c) := by
  unfold TunnelEntriesOk
  infer_instance

/-! ## Environment expansion (Go `os.ExpandEnv` / `os.Expand`) -/

/-- Go `os.Expand`'s shell special parameters: `*#$@!?-` and the digits. -/
def isShellSpecialVar (c : Char) : Bool :=
  c = '*' ∨ c = '#' ∨ c = '$' ∨ c = '@' ∨ c = '!' ∨ c = '?' ∨ c = '-' ∨
    ('0' ≤ c ∧ c ≤ '9')

/-- Go `os.Expand`'s name characters: letters, digits and underscore. -/
def isAlphaNum (c : Char) : Bool :=
  c = '_' ∨ ('0' ≤ c ∧ c ≤ '9') ∨ ('a' ≤ c ∧ c ≤ 'z') ∨ ('A' ≤ c ∧ c ≤ 'Z')

/-- The brace scan of Go `getShellName`: positioned after `${`, `acc`
holds the characters seen, `i` the index in the original slice (which
starts at the `{`).  Returns the name and the number of characters of
the slice consumed. -/
def braceScan : List Char → List Char → Nat → (List Char × Nat)
  | [], _, _ => ([], 1)
  | c :: rest, acc, i =>
    if c = '}' then
      if i = 1 then ([], 2) else (acc, i + 1)
    else braceScan rest (acc ++ [c]) (i + 1)

/-- Go `getShellName`, applied to the text after a `$` (so a leading
`{` corresponds to Go's `s[0] == '{'`, and Go's
`len(s) > 2 && isShellSpecialVar(s[1]) && s[2] == '}'` special case
tests the first two characters after the brace). -/
def getShellName : List Char → (List Char × Nat)
  | [] => ([], 0)
  | c :: rest =>
    if c = '{' then
      match rest with
      | c1 :: c2 :: _ =>
        if isShellSpecialVar c1 = true ∧ c2 = '}' then ([c1], 3) else braceScan rest [] 1
      | _ => braceScan rest [] 1
    else if isShellSpecialVar c then ([c], 1)
    else
      let name := (c :: rest).takeWhile (fun ch => isAlphaNum ch)
      (name, name.length)

/-- The scanning loop of Go `os.Expand` over the raw text, with the
mapping applied to every recognised name. -/
def expandLoop (mapping : List Char → List Char) : List Char → List Char
  | [] => []
  | c :: rest =>
    if c = '$' then
      if rest = [] then [c]
      else
        let nw := getShellName rest
        (if nw.1 = [] ∧ 0 < nw.2 then []
         else if nw.1 = [] then [c]
         else mapping nw.1) ++ expandLoop mapping (rest.drop nw.2)
    else c :: expandLoop mapping rest
termination_by l => l.length
decreasing_by
  · simp only [List.length_cons, List.length_drop]
    omega
  · simp

/-- Go `os.ExpandEnv`: expand with `os.Getenv`, which yields the empty
string for an unset variable (`osEnv name = none`). -/
def ExpandEnv (osEnv : String → Option String) (s : String) : String :=
  String.mk (expandLoop (fun name => ((osEnv (String.mk name)).getD ("")).data) s.data)

/-! ## Loading (`config.Load`) -/

/-- The failure cases of `config.Load`: file read, YAML decode,
validation. -/
inductive LoadError where
  | readError (msg : String)
  | parseError (msg : String)
  | invalidConfig (e : ValidateError)
deriving DecidableEq

/-- Embedding of `config.Load`.  The file read (`os.ReadFile`) and the YAML decoder
(`yaml.Unmarshal`) are external collaborators (spec §1); they enter the
model as the `readResult` and `parse` parameters.  Environment
expansion happens on the raw text before decoding. -/
def Load (readResult : Except String String) (parse : String → Except String Config)
    (osEnv : String → Option String) : Except LoadError Config :=
  match readResult with
  | .error e => .error (.readError e)
  | .ok data =>
    match parse (ExpandEnv osEnv data) with
    | .error e => .error (.parseError e)
    | .ok cfg =>
      match cfg.Validate with
      | some e => .error (.invalidConfig e)
      | none => .ok cfg

/-! ## The tunnel engine (gokit `pkg/tunnel`, modelled from the spec) -/

/-- Runtime tunnel entity (gokit `tunnel.Tunnel`).  Modelled from the
spec: §3 — the SSH config, the forwarding endpoints, the current
status and the last error.  The listener, stats and cancellation
signal are runtime resources without map-level observable state and
are not embedded. -/
structure Tunnel where
  sshConfig : SSHConfig
  remoteHost : String
  remotePort : Int
  localPort : Int
  status : Status
  lastError : Option String
deriving DecidableEq

/-- gokit `tunnel.NewTunnel`.  Modelled from the spec: §3 — a tunnel is
created in status `Stopped` with no error. -/
def NewTunnel (ssh : SSHConfig) (remoteHost : String) (remotePort localPort : Int) : Tunnel :=
  { sshConfig := ssh, remoteHost := remoteHost, remotePort := remotePort,
    localPort := localPort, status := .stopped, lastError := none }

/-- Modelled from the spec: `Tunnel.Start` (§4.1) fails with
`AlreadyRunning` when the status is Running or Starting; otherwise the
listener bind either succeeds (→ Running) or fails (→ Error with
`ListenFailed`).  `bindOk` is the outcome of the bind, an external I/O
event. -/
def Tunnel.Start (bindOk : Bool) (t : Tunnel) : Tunnel × Option String :=
  if t.status = .running ∨ t.status = .starting then (t, some ("AlreadyRunning"))
  else if bindOk then ({ t with status := .running, lastError := none }, none)
  else ({ t with status := .error, lastError := some ("ListenFailed") }, some ("ListenFailed"))

/-- Modelled from the spec: `Tunnel.Stop` (§4.1) transitions
Running/Error → Stopped and is idempotent (success on an
already-Stopped tunnel).  The Go signature returns an error, so the
model takes the outcome `stopOk`; a spec-conformant environment always
supplies `true` (§4.1/§5 give `Stop` no failure mode: a slow drain is
resolved by force-closing). -/
def Tunnel.Stop (stopOk : Bool) (t : Tunnel) : Tunnel × Option String :=
  if t.status = .stopped then (t, none)
  else if stopOk then ({ t with status := .stopped }, none)
  else (t, some ("StopFailed"))

/-- Modelled from the spec: `Tunnel.Restart` (§4.1) is `Stop()` then
`Start()`. -/
def Tunnel.Restart (stopOk bindOk : Bool) (t : Tunnel) : Tunnel × Option String :=
  match t.Stop stopOk with
  | (t', none) => t'.Start bindOk
  | (t', some e) => (t', some e)

/-- Oracle supplying the outcomes of the external I/O performed by the
tunnel engine on behalf of the named tunnel: whether its listener bind
succeeds and whether its stop succeeds. -/
structure Env where
  bindOk : String → Bool
  stopOk : String → Bool

/-! ## The manager (`internal/manager`) -/

/-- A Go `map[string]α` as an association list with unique keys. -/
abbrev SMap (α : Type) := AList (fun _ : String => α)

/-- Embedding of `manager.Manager`: the current SSH config, the three parallel maps
(`tunnels`, `configs`, and the domain of `tunnelDones`), and whether
the manager-wide `done` channel has been closed. -/
structure Manager where
  sshConfig : SSHConfig
  tunnels : SMap Tunnel
  configs : SMap TunnelConfig
  tunnelDones : List String
  doneClosed : Bool
deriving DecidableEq

/-- Embedding of `manager.NewManager`. -/
def NewManager (ssh : SSHConfig) : Manager :=
  { sshConfig := ssh, tunnels := ∅, configs := ∅, tunnelDones := [], doneClosed := false }

/-- Embedding of `Manager.List`: the registered tunnel names (named `ListNames` here
because `List` inside the `Manager` namespace would shadow the core
list type). -/
def Manager.ListNames (m : Manager) : List String :=
  m.tunnels.keys

/-- Embedding of `Manager.Add`: fail if the name exists, otherwise register the
tunnel (created via `tunnel.NewTunnel`, so Stopped) and its config. -/
def Manager.Add (m : Manager) (cfg : TunnelConfig) : Manager × Option String :=
  if (m.tunnels.lookup cfg.name).isSome then
    (m, some ("tunnel " ++ cfg.name ++ " already exists"))
  else
    ({ m with
        tunnels := m.tunnels.insert cfg.name
          (NewTunnel m.sshConfig cfg.remoteHost cfg.remotePort cfg.localPort),
        configs := m.configs.insert cfg.name cfg }, none)

/-- Embedding of `Manager.stopAutoRestartForTunnel`: close and drop the supervisor
channel for `name`, if any. -/
def Manager.stopAutoRestartForTunnel (m : Manager) (name : String) : Manager :=
  { m with tunnelDones := eraseS m.tunnelDones name }

/-- Embedding of `Manager.startAutoRestartForTunnel`: close any existing supervisor
channel for `name` and store a fresh one (the supervisor goroutine
itself has no map-level state). -/
def Manager.startAutoRestartForTunnel (m : Manager) (name : String) : Manager :=
  { m with tunnelDones := insertS m.tunnelDones name }

/-- Embedding of `Manager.Remove`: cancel the supervisor first, then fail on a
missing name; stop the tunnel if it is Running (aborting with the stop
error if that fails); finally delete tunnel and config. -/
def Manager.Remove (env : Env) (m : Manager) (name : String) : Manager × Option String :=
  let m := m.stopAutoRestartForTunnel name
  match m.tunnels.lookup name with
  | none => (m, some ("tunnel " ++ name ++ " not found"))
  | some tun =>
    if tun.status = .running then
      match tun.Stop (env.stopOk name) with
      | (tun', some e) =>
        ({ m with tunnels := m.tunnels.insert name tun' },
         some ("failed to stop tunnel " ++ name ++ ": " ++ e))
      | (_, none) =>
        ({ m with tunnels := m.tunnels.erase name, configs := m.configs.erase name }, none)
    else
      ({ m with tunnels := m.tunnels.erase name, configs := m.configs.erase name }, none)

/-- Embedding of `Manager.Start`: fail on a missing name; start the tunnel; on
success, launch the auto-restart supervisor when the config enables
it.  A missing config yields the Go zero value (auto-restart
disabled). -/
def Manager.Start (env : Env) (m : Manager) (name : String) : Manager × Option String :=
  match m.tunnels.lookup name with
  | none => (m, some ("tunnel " ++ name ++ " not found"))
  | some tun =>
    let cfg := (m.configs.lookup name).getD zeroTunnelConfig
    match tun.Start (env.bindOk name) with
    | (tun', some e) =>
      ({ m with tunnels := m.tunnels.insert name tun' },
       some ("failed to start tunnel " ++ name ++ ": " ++ e))
    | (tun', none) =>
      let m' := { m with tunnels := m.tunnels.insert name tun' }
      if cfg.autoRestart.enabled then (m'.startAutoRestartForTunnel name, none)
      else (m', none)

/-- Embedding of `Manager.Stop`: cancel the supervisor first; fail on a missing
name; stop the tunnel. -/
def Manager.Stop (env : Env) (m : Manager) (name : String) : Manager × Option String :=
  let m := m.stopAutoRestartForTunnel name
  match m.tunnels.lookup name with
  | none => (m, some ("tunnel " ++ name ++ " not found"))
  | some tun =>
    match tun.Stop (env.stopOk name) with
    | (tun', some e) =>
      ({ m with tunnels := m.tunnels.insert name tun' },
       some ("failed to stop tunnel " ++ name ++ ": " ++ e))
    | (tun', none) => ({ m with tunnels := m.tunnels.insert name tun' }, none)

/-- Embedding of `Manager.Restart`: fail on a missing name; restart the tunnel. -/
def Manager.Restart (env : Env) (m : Manager) (name : String) : Manager × Option String :=
  match m.tunnels.lookup name with
  | none => (m, some ("tunnel " ++ name ++ " not found"))
  | some tun =>
    match tun.Restart (env.stopOk name) (env.bindOk name) with
    | (tun', some e) =>
      ({ m with tunnels := m.tunnels.insert name tun' },
       some ("failed to restart tunnel " ++ name ++ ": " ++ e))
    | (tun', none) => ({ m with tunnels := m.tunnels.insert name tun' }, none)

/-- The loop of `Manager.StartAll` over the snapshotted names. -/
def startAllLoop (env : Env) :
    List String → Manager × List (String × String) → Manager × List (String × String)
  | [], acc => acc
  | name :: rest, acc =>
    match Manager.Start env acc.1 name with
    | (m', some e) => startAllLoop env rest (m', acc.2 ++ [(name, e)])
    | (m', none) => startAllLoop env rest (m', acc.2)

/-- Embedding of `Manager.StartAll`: snapshot the names, `Start` each, collect
failures. -/
def Manager.StartAll (env : Env) (m : Manager) : Manager × List (String × String) :=
  startAllLoop env m.ListNames (m, [])

/-- The loop of `Manager.StopAll` over the tunnel entries: stop each
tunnel in place, collecting failures. -/
def stopAllLoop (env : Env) :
    List String → Manager × List (String × String) → Manager × List (String × String)
  | [], acc => acc
  | name :: rest, acc =>
    match acc.1.tunnels.lookup name with
    | none => stopAllLoop env rest acc
    | some tun =>
      match tun.Stop (env.stopOk name) with
      | (tun', some e) =>
        stopAllLoop env rest
          ({ acc.1 with tunnels := acc.1.tunnels.insert name tun' }, acc.2 ++ [(name, e)])
      | (tun', none) =>
        stopAllLoop env rest
          ({ acc.1 with tunnels := acc.1.tunnels.insert name tun' }, acc.2)

/-- Embedding of `Manager.StopAll`: close and drop every supervisor channel, then
stop every tunnel, collecting failures. -/
def Manager.StopAll (env : Env) (m : Manager) : Manager × List (String × String) :=
  stopAllLoop env m.tunnels.keys ({ m with tunnelDones := [] }, [])

/-- Embedding of `Manager.Close`: `close(m.done)` then `StopAll`.  Closing an
already-closed Go channel is a runtime panic; that fault is the `none`
result. -/
def Manager.Close (env : Env) (m : Manager) : Option (Manager × Option String) :=
  if m.doneClosed then none
  else
    let m0 := { m with doneClosed := true }
    let r := Manager.StopAll env m0
    some (r.1, if r.2 = [] then none else some ("errors closing manager"))

/-- Embedding of `manager.tunnelConfigChanged`: field-by-field comparison of
remoteHost, remotePort, localPort and the two autoRestart fields (the
name is the map key and is not compared). -/
def tunnelConfigChanged (old new : TunnelConfig) : Bool :=
  if ¬ old.remoteHost = new.remoteHost then true
  else if ¬ old.remotePort = new.remotePort then true
  else if ¬ old.localPort = new.localPort then true
  else if ¬ old.autoRestart.enabled = new.autoRestart.enabled then true
  else if ¬ old.autoRestart.interval = new.autoRestart.interval then true
  else false

/-- The lifecycle actions `Reconcile` logs and performs, in order: each
constructor corresponds to one of the three `log.Printf` action lines
("removing tunnel", "adding tunnel", "changed, restarting"). -/
inductive ReconcileOp where
  | removedOp (name : String)
  | addedOp (name : String)
  | restartedOp (name : String)
deriving DecidableEq

/-- The `newConfigs` map of `Reconcile`: built by `newConfigs[cfg.Name] = cfg`
over the tunnel list (a later duplicate name shadows an earlier one). -/
def buildNewConfigs (l : List TunnelConfig) : SMap TunnelConfig :=
  l.foldl (fun acc cfg => acc.insert cfg.name cfg) ∅

/-- Phase 1 of `Reconcile`: `Remove` every current name not among the
new names (failures are logged and do not abort). -/
def reconcileRemoves (env : Env) (newNames : List String) :
    List String → Manager × List ReconcileOp → Manager × List ReconcileOp
  | [], acc => acc
  | name :: rest, acc =>
    if name ∈ newNames then reconcileRemoves env newNames rest acc
    else
      reconcileRemoves env newNames rest
        ((Manager.Remove env acc.1 name).1, acc.2 ++ [.removedOp name])

/-- Phase 2 of `Reconcile`: for every new name not currently present,
`Add` then `Start` (an `Add` failure skips the `Start`; failures are
logged and do not abort). -/
def reconcileAdds (env : Env) (currentNames : List String) :
    List ((_ : String) × TunnelConfig) → Manager × List ReconcileOp → Manager × List ReconcileOp
  | [], acc => acc
  | e :: rest, acc =>
    if e.1 ∈ currentNames then reconcileAdds env currentNames rest acc
    else
      match Manager.Add acc.1 e.2 with
      | (m', some _) => reconcileAdds env currentNames rest (m', acc.2 ++ [.addedOp e.1])
      | (m', none) =>
        reconcileAdds env currentNames rest
          ((Manager.Start env m' e.1).1, acc.2 ++ [.addedOp e.1])

/-- Phase 3 of `Reconcile`: for every new name currently present whose
stored config differs under `tunnelConfigChanged`, store the new
config and `Restart` (failures are logged and do not abort). -/
def reconcileChanges (env : Env) (currentNames : List String) :
    List ((_ : String) × TunnelConfig) → Manager × List ReconcileOp → Manager × List ReconcileOp
  | [], acc => acc
  | e :: rest, acc =>
    if e.1 ∈ currentNames then
      match acc.1.configs.lookup e.1 with
      | some oldCfg =>
        if tunnelConfigChanged oldCfg e.2 then
          reconcileChanges env currentNames rest
            ((Manager.Restart env { acc.1 with configs := acc.1.configs.insert e.1 e.2 } e.1).1,
             acc.2 ++ [.restartedOp e.1])
        else reconcileChanges env currentNames rest acc
      | none => reconcileChanges env currentNames rest acc
    else reconcileChanges env currentNames rest acc

/-- Embedding of `Manager.Reconcile`: replace the SSH config, snapshot the current
names, build the new-config map, then run the remove / add / change
phases.  The Go function only logs per-tunnel failures and returns nil;
the model additionally returns the trace of performed actions (one
entry per action log line). -/
def Manager.Reconcile (env : Env) (m : Manager) (newConfig : Config) : Manager × List ReconcileOp :=
  let m0 := { m with sshConfig := newConfig.ssh }
  let currentNames := m0.ListNames
  let newNames := newConfig.tunnelConfigs.map TunnelConfig.name
  let newCfgs := buildNewConfigs newConfig.tunnelConfigs
  let acc1 := reconcileRemoves env newNames currentNames (m0, [])
  let acc2 := reconcileAdds env currentNames newCfgs.entries acc1
  reconcileChanges env currentNames newCfgs.entries acc2

/-! ## The watcher reload path (`internal/watcher`) -/

/-- Embedding of `Watcher.reload`: `config.Load`, and on success `Reconcile`; on any
load failure the manager is left untouched.  The boolean records
whether `Reconcile` was invoked. -/
def Watcher.reload (readResult : Except String String) (parse : String → Except String Config)
    (osEnv : String → Option String) (env : Env) (m : Manager) : Manager × Bool :=
  match Load readResult parse osEnv with
  | .error _ => (m, false)
  | .ok newConfig => ((Manager.Reconcile env m newConfig).1, true)

/-! ## Operation sequences -/

/-- One mutating manager call, for stating whole-trace invariants. -/
inductive Call where
  | addCall (cfg : TunnelConfig)
  | removeCall (name : String)
  | startCall (name : String)
  | stopCall (name : String)
  | restartCall (name : String)
  | startAllCall
  | stopAllCall
  | reconcileCall (cfg : Config)
  | closeCall
deriving DecidableEq

/-- Apply one call, discarding the returned error.  A `Close` on an
already-closed manager panics before mutating anything, so the state at
the fault is the input state. -/
def applyCall (env : Env) (m : Manager) : Call → Manager
  | .addCall cfg => (m.Add cfg).1
  | .removeCall name => (Manager.Remove env m name).1
  | .startCall name => (Manager.Start env m name).1
  | .stopCall name => (Manager.Stop env m name).1
  | .restartCall name => (Manager.Restart env m name).1
  | .startAllCall => (Manager.StartAll env m).1
  | .stopAllCall => (Manager.StopAll env m).1
  | .reconcileCall cfg => (Manager.Reconcile env m cfg).1
  | .closeCall =>
    match Manager.Close env m with
    | none => m
    | some r => r.1

/-- Apply a sequence of calls. -/
def applyCalls (env : Env) (calls : List Call) (m : Manager) : Manager :=
  calls.foldl (applyCall env) m

/-! ## The manager map invariant -/

/-- The key-set consistency invariant of the manager's three maps
(spec §3): every tunnel has a config and vice versa, every supervisor
entry has a tunnel; additionally every stored config is keyed by its
own name (every write path stores `cfg` under `cfg.Name`). -/
def WF (m : Manager) : Prop :=
  (∀ n ∈ m.tunnels.keys, (m.configs.lookup n).isSome = true)
  ∧ (∀ n ∈ m.configs.keys, (m.tunnels.lookup n).isSome = true)
  ∧ (∀ n ∈ m.tunnelDones, (m.tunnels.lookup n).isSome = true)
  ∧ (∀ n ∈ m.configs.keys, ((m.configs.lookup n).map TunnelConfig.name).getD n = n)

instance (m : Manager) : Decidable (WF m) := by
  unfold WF
  infer_instance

/-! ## The invariant, in lookup form -/

/-- The manager invariant phrased through lookups, the form the
preservation proofs use. -/
def WFl (m : Manager) : Prop :=
  (∀ n, ((m.tunnels.lookup n).isSome = true) → ((m.configs.lookup n).isSome = true))
  ∧ (∀ n, ((m.configs.lookup n).isSome = true) → ((m.tunnels.lookup n).isSome = true))
  ∧ (∀ n ∈ m.tunnelDones, (m.tunnels.lookup n).isSome = true)
  ∧ (∀ n cfg, m.configs.lookup n = some cfg → cfg.name = n)

/-- A well-formed environment-variable name: non-empty, alphanumeric,
not beginning with a digit (a digit would be one of Go's one-character
shell special parameters). -/
def goodVarName (s : String) : Prop :=
  ¬ s.data = [] ∧ (∀ c ∈ s.data, isAlphaNum c = true) ∧
    isShellSpecialVar s.data.headI = false

instance (s : String) : Decidable (goodVarName s) := by
  unfold goodVarName
  infer_instance

/-! ## Concrete inputs for the witnesses -/

/-- A valid SSH section. -/
def ssh0 : SSHConfig :=
  { user := "user", host := "bastion", port := 22, password := "pass",
    keyFile := "", knownHostsFile := "" }

/-- Environment in which every bind and every stop succeeds. -/
def env0 : Env := { bindOk := fun _ => true, stopOk := fun _ => true }

/-- Environment in which every stop fails. -/
def envSF : Env := { bindOk := fun _ => true, stopOk := fun _ => false }

def cfgT : TunnelConfig :=
  { name := "t1", remoteHost := "db", remotePort := 5432, localPort := 15432,
    autoRestart := { enabled := false, interval := 0 } }

def cfgT2 : TunnelConfig :=
  { name := "t2", remoteHost := "db2", remotePort := 5433, localPort := 15433,
    autoRestart := { enabled := true, interval := 100 } }

def conf0 : Config := { ssh := ssh0, tunnelConfigs := [cfgT, cfgT2] }

def conf2 : Config := { ssh := ssh0, tunnelConfigs := [cfgT2] }

def mgr0 : Manager := NewManager ssh0

/-- A manager with `t1` registered (Stopped). -/
def mA : Manager := (Manager.Add mgr0 cfgT).1

/-- A running tunnel. -/
def tunR : Tunnel :=
  { NewTunnel ssh0 ("db") 5432 15432 with status := Status.running }

/-- A manager with a Running `t1` and a live supervisor for it. -/
def mR : Manager :=
  { sshConfig := ssh0, tunnels := AList.insert ("t1") tunR ∅,
    configs := AList.insert ("t1") cfgT ∅, tunnelDones := ["t1"], doneClosed := false }

/-- A config with a valid ssh section and no tunnels. -/
def confEmpty : Config := { ssh := ssh0, tunnelConfigs := [] }

/-- A config whose two tunnels collide on `localPort`. -/
def confDup : Config :=
  { ssh := ssh0,
    tunnelConfigs :=
      [{ name := "a", remoteHost := "h1", remotePort := 1, localPort := 5432,
         autoRestart := { enabled := false, interval := 0 } },
       { name := "b", remoteHost := "h2", remotePort := 1, localPort := 5432,
         autoRestart := { enabled := false, interval := 0 } }] }

/-- A parser stub whose output fails validation (empty tunnel list). -/
def parseBad (_raw : String) : Except String Config := Except.ok confEmpty

/-- The empty OS environment: every variable is unset. -/
def osEnvNone (_v : String) : Option String := none

/-! ## Theorems -/

@[simp] theorem mem_eraseS (l : List String) (k n : String) :
    n ∈ eraseS l k ↔ n ∈ l ∧ ¬ n = k := by
  simp [eraseS]

@[simp] theorem mem_insertS (l : List String) (k n : String) :
    n ∈ insertS l k ↔ n ∈ l ∨ n = k := by
  unfold insertS
  by_cases h : k ∈ l
  · simp only [if_pos h, List.mem_append]
    constructor
    · intro hn; exact Or.inl hn
    · rintro (hn | hn)
      · exact hn
      · subst hn; exact h
  · simp [if_neg h]

/-! ## Pointwise map lemmas -/

theorem smap_lookup_insert {α : Type} (s : SMap α) (k k' : String) (v : α) :
    (s.insert k v).lookup k' = if k' = k then some v else s.lookup k' := by
  by_cases h : k' = k
  · subst h; simp
  · simp [AList.lookup_insert_ne h, h]

theorem smap_lookup_erase {α : Type} (s : SMap α) (k k' : String) :
    (s.erase k).lookup k' = if k' = k then none else s.lookup k' := by
  by_cases h : k' = k
  · subst h; simp
  · simp [AList.lookup_erase_ne h, h]

theorem smap_lookup_insert_isSome {α : Type} (s : SMap α) (k k' : String) (v : α) :
    (((s.insert k v).lookup k').isSome = true) ↔ (k' = k ∨ (s.lookup k').isSome = true) := by
  rw [smap_lookup_insert]
  by_cases h : k' = k <;> simp [h]

theorem smap_insert_isSome {α : Type} (s : SMap α) (k k' : String) (v : α)
    (h : (s.lookup k).isSome = true) :
    ((s.insert k v).lookup k').isSome = (s.lookup k').isSome := by
  rw [smap_lookup_insert]
  by_cases hk : k' = k
  · subst hk; simp [h]
  · simp [hk]

/-! ## Invariant accessors -/

theorem WF.configs_isSome {m : Manager} (hwf : WF m) {n : String}
    (h : (m.tunnels.lookup n).isSome = true) : (m.configs.lookup n).isSome = true :=
  hwf.1 n (AList.mem_keys.mp (AList.lookup_isSome.mp h))

theorem WF.tunnels_isSome {m : Manager} (hwf : WF m) {n : String}
    (h : (m.configs.lookup n).isSome = true) : (m.tunnels.lookup n).isSome = true :=
  hwf.2.1 n (AList.mem_keys.mp (AList.lookup_isSome.mp h))

theorem WF.dones_isSome {m : Manager} (hwf : WF m) {n : String}
    (h : n ∈ m.tunnelDones) : (m.tunnels.lookup n).isSome = true :=
  hwf.2.2.1 n h

theorem WF.cfg_name {m : Manager} (hwf : WF m) {n : String} {cfg : TunnelConfig}
    (h : m.configs.lookup n = some cfg) : cfg.name = n := by
  have hk : n ∈ m.configs.keys := AList.mem_keys.mp (AList.lookup_isSome.mp (by simp [h]))
  have := hwf.2.2.2 n hk
  rw [h] at this
  simpa using this

theorem WF.configs_none {m : Manager} (hwf : WF m) {n : String}
    (h : m.tunnels.lookup n = none) : m.configs.lookup n = none := by
  cases hc : m.configs.lookup n with
  | none => rfl
  | some cfg =>
    have := @WF.tunnels_isSome m hwf n (by simp [hc])
    rw [h] at this
    simp at this

/-! ## Operation characterizations -/

theorem Start_spec (env : Env) (m : Manager) (name : String) :
    (∀ n, (((Manager.Start env m name).1.tunnels.lookup n).isSome = true) ↔
       ((m.tunnels.lookup n).isSome = true))
    ∧ (Manager.Start env m name).1.configs = m.configs
    ∧ (∀ k, k ∈ (Manager.Start env m name).1.tunnelDones →
        k ∈ m.tunnelDones ∨ (k = name ∧ (m.tunnels.lookup name).isSome = true))
    ∧ (Manager.Start env m name).1.sshConfig = m.sshConfig
    ∧ (Manager.Start env m name).1.doneClosed = m.doneClosed := by
  cases htun : m.tunnels.lookup name with
  | none =>
    have hres : (Manager.Start env m name).1 = m := by
      simp [Manager.Start, htun]
    rw [hres]
    exact ⟨fun n => Iff.rfl, rfl, fun k hk => Or.inl hk, rfl, rfl⟩
  | some tun =>
    have hsome : (m.tunnels.lookup name).isSome = true := by simp [htun]
    rcases hs : tun.Start (env.bindOk name) with ⟨tun', err⟩
    cases err with
    | some e =>
      have hres : (Manager.Start env m name).1 = { m with tunnels := m.tunnels.insert name tun' } := by
        simp [Manager.Start, htun, hs]
      rw [hres]
      refine ⟨fun n => ?_, rfl, fun k hk => Or.inl hk, rfl, rfl⟩
      rw [smap_insert_isSome _ _ _ _ hsome]
    | none =>
      by_cases hcfg : ((m.configs.lookup name).getD zeroTunnelConfig).autoRestart.enabled = true
      · have hres : (Manager.Start env m name).1 =
            { m with tunnels := m.tunnels.insert name tun',
                     tunnelDones := insertS m.tunnelDones name } := by
          simp [Manager.Start, htun, hs, hcfg, Manager.startAutoRestartForTunnel]
        rw [hres]
        refine ⟨fun n => ?_, rfl, fun k hk => ?_, rfl, rfl⟩
        · rw [smap_insert_isSome _ _ _ _ hsome]
        · rcases (mem_insertS _ _ _).mp hk with h | h
          · exact Or.inl h
          · exact Or.inr ⟨h, by simp⟩
      · have hres : (Manager.Start env m name).1 =
            { m with tunnels := m.tunnels.insert name tun' } := by
          simp [Manager.Start, htun, hs, hcfg]
        rw [hres]
        refine ⟨fun n => ?_, rfl, fun k hk => Or.inl hk, rfl, rfl⟩
        rw [smap_insert_isSome _ _ _ _ hsome]

theorem Stop_spec (env : Env) (m : Manager) (name : String) :
    (∀ n, (((Manager.Stop env m name).1.tunnels.lookup n).isSome = true) ↔
       ((m.tunnels.lookup n).isSome = true))
    ∧ (Manager.Stop env m name).1.configs = m.configs
    ∧ (Manager.Stop env m name).1.tunnelDones = eraseS m.tunnelDones name
    ∧ (Manager.Stop env m name).1.sshConfig = m.sshConfig
    ∧ (Manager.Stop env m name).1.doneClosed = m.doneClosed := by
  cases htun : m.tunnels.lookup name with
  | none =>
    have hres : (Manager.Stop env m name).1 =
        { m with tunnelDones := eraseS m.tunnelDones name } := by
      simp [Manager.Stop, Manager.stopAutoRestartForTunnel, htun]
    rw [hres]
    exact ⟨fun n => Iff.rfl, rfl, rfl, rfl, rfl⟩
  | some tun =>
    have hsome : (m.tunnels.lookup name).isSome = true := by simp [htun]
    rcases hs : tun.Stop (env.stopOk name) with ⟨tun', err⟩
    have hres : (Manager.Stop env m name).1 =
        { m with tunnels := m.tunnels.insert name tun',
                 tunnelDones := eraseS m.tunnelDones name } := by
      cases err with
      | some e => simp [Manager.Stop, Manager.stopAutoRestartForTunnel, htun, hs]
      | none => simp [Manager.Stop, Manager.stopAutoRestartForTunnel, htun, hs]
    rw [hres]
    refine ⟨fun n => ?_, rfl, rfl, rfl, rfl⟩
    rw [smap_insert_isSome _ _ _ _ hsome]

theorem Restart_spec (env : Env) (m : Manager) (name : String) :
    (∀ n, (((Manager.Restart env m name).1.tunnels.lookup n).isSome = true) ↔
       ((m.tunnels.lookup n).isSome = true))
    ∧ (Manager.Restart env m name).1.configs = m.configs
    ∧ (Manager.Restart env m name).1.tunnelDones = m.tunnelDones
    ∧ (Manager.Restart env m name).1.sshConfig = m.sshConfig
    ∧ (Manager.Restart env m name).1.doneClosed = m.doneClosed := by
  cases htun : m.tunnels.lookup name with
  | none =>
    have hres : (Manager.Restart env m name).1 = m := by
      simp [Manager.Restart, htun]
    rw [hres]
    exact ⟨fun n => Iff.rfl, rfl, rfl, rfl, rfl⟩
  | some tun =>
    have hsome : (m.tunnels.lookup name).isSome = true := by simp [htun]
    rcases hs : tun.Restart (env.stopOk name) (env.bindOk name) with ⟨tun', err⟩
    have hres : (Manager.Restart env m name).1 =
        { m with tunnels := m.tunnels.insert name tun' } := by
      cases err with
      | some e => simp [Manager.Restart, htun, hs]
      | none => simp [Manager.Restart, htun, hs]
    rw [hres]
    refine ⟨fun n => ?_, rfl, rfl, rfl, rfl⟩
    rw [smap_insert_isSome _ _ _ _ hsome]

/-! ## Add and Remove characterizations -/

theorem Add_fail (m : Manager) (cfg : TunnelConfig)
    (h : (m.tunnels.lookup cfg.name).isSome = true) :
    m.Add cfg = (m, some ("tunnel " ++ cfg.name ++ " already exists")) := by
  simp [Manager.Add, h]

theorem Add_ok (m : Manager) (cfg : TunnelConfig)
    (h : m.tunnels.lookup cfg.name = none) :
    m.Add cfg =
      ({ m with
          tunnels := m.tunnels.insert cfg.name
            (NewTunnel m.sshConfig cfg.remoteHost cfg.remotePort cfg.localPort),
          configs := m.configs.insert cfg.name cfg }, none) := by
  simp [Manager.Add, h]

theorem Remove_spec (env : Env) (m : Manager) (name : String)
    (hstop : env.stopOk name = true)
    (hcfgnone : m.tunnels.lookup name = none → m.configs.lookup name = none) :
    (∀ n, (Manager.Remove env m name).1.tunnels.lookup n =
        if n = name then none else m.tunnels.lookup n)
    ∧ (∀ n, (Manager.Remove env m name).1.configs.lookup n =
        if n = name then none else m.configs.lookup n)
    ∧ (Manager.Remove env m name).1.tunnelDones = eraseS m.tunnelDones name
    ∧ (Manager.Remove env m name).1.sshConfig = m.sshConfig
    ∧ (Manager.Remove env m name).1.doneClosed = m.doneClosed := by
  cases htun : m.tunnels.lookup name with
  | none =>
    have hres : (Manager.Remove env m name).1 =
        { m with tunnelDones := eraseS m.tunnelDones name } := by
      simp [Manager.Remove, Manager.stopAutoRestartForTunnel, htun]
    rw [hres]
    refine ⟨fun n => ?_, fun n => ?_, rfl, rfl, rfl⟩
    · by_cases hn : n = name
      · subst hn; simp [htun]
      · simp [hn]
    · by_cases hn : n = name
      · subst hn; simp [hcfgnone htun]
      · simp [hn]
  | some tun =>
    have hres : (Manager.Remove env m name).1 =
        { m with tunnels := m.tunnels.erase name, configs := m.configs.erase name,
                 tunnelDones := eraseS m.tunnelDones name } := by
      by_cases hrun : tun.status = Status.running
      · simp [Manager.Remove, Manager.stopAutoRestartForTunnel, htun, hrun, Tunnel.Stop, hstop]
      · simp [Manager.Remove, Manager.stopAutoRestartForTunnel, htun, hrun]
    rw [hres]
    refine ⟨fun n => ?_, fun n => ?_, rfl, rfl, rfl⟩
    · rw [smap_lookup_erase]
    · rw [smap_lookup_erase]

/-- Embedding of `Remove` preserves lookups under any environment outcome, except
possibly deleting `name`: presence can only shrink at `name`. -/
theorem Remove_frame (env : Env) (m : Manager) (name : String) :
    (∀ n, ¬ n = name → (Manager.Remove env m name).1.tunnels.lookup n = m.tunnels.lookup n)
    ∧ (∀ n, ¬ n = name → (Manager.Remove env m name).1.configs.lookup n = m.configs.lookup n)
    ∧ (∀ n, ((Manager.Remove env m name).1.tunnels.lookup n).isSome = true →
        (m.tunnels.lookup n).isSome = true)
    ∧ (∀ n, ((Manager.Remove env m name).1.configs.lookup n).isSome = true →
        (m.configs.lookup n).isSome = true)
    ∧ (Manager.Remove env m name).1.tunnelDones = eraseS m.tunnelDones name
    ∧ (Manager.Remove env m name).1.sshConfig = m.sshConfig
    ∧ (Manager.Remove env m name).1.doneClosed = m.doneClosed := by
  cases htun : m.tunnels.lookup name with
  | none =>
    have hres : (Manager.Remove env m name).1 =
        { m with tunnelDones := eraseS m.tunnelDones name } := by
      simp [Manager.Remove, Manager.stopAutoRestartForTunnel, htun]
    rw [hres]
    exact ⟨fun n _ => rfl, fun n _ => rfl, fun n h => h, fun n h => h, rfl, rfl, rfl⟩
  | some tun =>
    by_cases hrun : tun.status = Status.running
    · rcases hs : tun.Stop (env.stopOk name) with ⟨tun', err⟩
      cases err with
      | some e =>
        have hres : (Manager.Remove env m name).1 =
            { m with tunnels := m.tunnels.insert name tun',
                     tunnelDones := eraseS m.tunnelDones name } := by
          simp [Manager.Remove, Manager.stopAutoRestartForTunnel, htun, hrun, hs]
        rw [hres]
        refine ⟨fun n hn => ?_, fun n _ => rfl, fun n h => ?_, fun n h => h, rfl, rfl, rfl⟩
        · exact AList.lookup_insert_ne hn
        · rw [smap_insert_isSome _ _ _ _ (by simp [htun])] at h
          exact h
      | none =>
        have hres : (Manager.Remove env m name).1 =
            { m with tunnels := m.tunnels.erase name, configs := m.configs.erase name,
                     tunnelDones := eraseS m.tunnelDones name } := by
          simp [Manager.Remove, Manager.stopAutoRestartForTunnel, htun, hrun, hs]
        rw [hres]
        refine ⟨fun n hn => AList.lookup_erase_ne hn, fun n hn => AList.lookup_erase_ne hn,
          fun n h => ?_, fun n h => ?_, rfl, rfl, rfl⟩
        · rw [smap_lookup_erase] at h
          by_cases hn : n = name
          · simp [hn] at h
          · rw [if_neg hn] at h; exact h
        · rw [smap_lookup_erase] at h
          by_cases hn : n = name
          · simp [hn] at h
          · rw [if_neg hn] at h; exact h
    · have hres : (Manager.Remove env m name).1 =
          { m with tunnels := m.tunnels.erase name, configs := m.configs.erase name,
                   tunnelDones := eraseS m.tunnelDones name } := by
        simp [Manager.Remove, Manager.stopAutoRestartForTunnel, htun, hrun]
      rw [hres]
      refine ⟨fun n hn => AList.lookup_erase_ne hn, fun n hn => AList.lookup_erase_ne hn,
        fun n h => ?_, fun n h => ?_, rfl, rfl, rfl⟩
      · rw [smap_lookup_erase] at h
        by_cases hn : n = name
        · simp [hn] at h
        · rw [if_neg hn] at h; exact h
      · rw [smap_lookup_erase] at h
        by_cases hn : n = name
        · simp [hn] at h
        · rw [if_neg hn] at h; exact h

theorem WF_iff (m : Manager) : WF m ↔ WFl m := by
  constructor
  · intro hwf
    refine ⟨fun n h => hwf.configs_isSome h, fun n h => hwf.tunnels_isSome h,
      hwf.2.2.1, fun n cfg h => hwf.cfg_name h⟩
  · intro hwf
    refine ⟨fun n hn => ?_, fun n hn => ?_, hwf.2.2.1, fun n hn => ?_⟩
    · exact hwf.1 n (AList.lookup_isSome.mpr (AList.mem_keys.mpr hn))
    · exact hwf.2.1 n (AList.lookup_isSome.mpr (AList.mem_keys.mpr hn))
    · cases hc : m.configs.lookup n with
      | none => simp
      | some cfg => simp [hwf.2.2.2 n cfg hc]

/-! ## Invariant preservation -/

theorem WFl_dones_eraseS (m : Manager) (k : String) (h : WFl m) :
    WFl { m with tunnelDones := eraseS m.tunnelDones k } :=
  ⟨h.1, h.2.1, fun n hn => h.2.2.1 n ((mem_eraseS _ _ _).mp hn).1, h.2.2.2⟩

theorem WFl_tunnels_insert_present (m : Manager) (k : String) (v : Tunnel)
    (hk : (m.tunnels.lookup k).isSome = true) (h : WFl m) :
    WFl { m with tunnels := m.tunnels.insert k v } := by
  refine ⟨fun n hn => ?_, fun n hn => ?_, fun n hn => ?_, h.2.2.2⟩
  · replace hn : ((m.tunnels.insert k v).lookup n).isSome = true := hn
    rw [smap_insert_isSome _ _ _ _ hk] at hn
    exact h.1 n hn
  · show ((m.tunnels.insert k v).lookup n).isSome = true
    rw [smap_insert_isSome _ _ _ _ hk]
    exact h.2.1 n hn
  · show ((m.tunnels.insert k v).lookup n).isSome = true
    rw [smap_insert_isSome _ _ _ _ hk]
    exact h.2.2.1 n hn

theorem WFl_configs_insert_present (m : Manager) (k : String) (v : TunnelConfig)
    (hk : (m.configs.lookup k).isSome = true) (hname : v.name = k) (h : WFl m) :
    WFl { m with configs := m.configs.insert k v } := by
  refine ⟨fun n hn => ?_, fun n hn => ?_, h.2.2.1, fun n c hc => ?_⟩
  · show ((m.configs.insert k v).lookup n).isSome = true
    rw [smap_insert_isSome _ _ _ _ hk]
    exact h.1 n hn
  · replace hn : ((m.configs.insert k v).lookup n).isSome = true := hn
    rw [smap_insert_isSome _ _ _ _ hk] at hn
    exact h.2.1 n hn
  · replace hc : (m.configs.insert k v).lookup n = some c := hc
    rw [smap_lookup_insert] at hc
    by_cases he : n = k
    · rw [if_pos he] at hc
      injection hc with hc
      subst hc
      rw [hname, he]
    · rw [if_neg he] at hc
      exact h.2.2.2 n c hc

theorem WFl_erase_both (m : Manager) (k : String) (h : WFl m) :
    WFl { m with tunnels := m.tunnels.erase k, configs := m.configs.erase k,
                 tunnelDones := eraseS m.tunnelDones k } := by
  refine ⟨fun n hn => ?_, fun n hn => ?_, fun n hn => ?_, fun n c hc => ?_⟩
  · replace hn : ((m.tunnels.erase k).lookup n).isSome = true := hn
    show ((m.configs.erase k).lookup n).isSome = true
    rw [smap_lookup_erase] at hn ⊢
    by_cases he : n = k
    · rw [if_pos he] at hn; simp at hn
    · rw [if_neg he] at hn ⊢
      exact h.1 n hn
  · replace hn : ((m.configs.erase k).lookup n).isSome = true := hn
    show ((m.tunnels.erase k).lookup n).isSome = true
    rw [smap_lookup_erase] at hn ⊢
    by_cases he : n = k
    · rw [if_pos he] at hn; simp at hn
    · rw [if_neg he] at hn ⊢
      exact h.2.1 n hn
  · replace hn : n ∈ eraseS m.tunnelDones k := hn
    show ((m.tunnels.erase k).lookup n).isSome = true
    obtain ⟨hmem, hne⟩ := (mem_eraseS _ _ _).mp hn
    rw [smap_lookup_erase, if_neg hne]
    exact h.2.2.1 n hmem
  · replace hc : (m.configs.erase k).lookup n = some c := hc
    rw [smap_lookup_erase] at hc
    by_cases he : n = k
    · rw [if_pos he] at hc; cases hc
    · rw [if_neg he] at hc
      exact h.2.2.2 n c hc

theorem WFl_Add (m : Manager) (cfg : TunnelConfig) (h : WFl m) : WFl (m.Add cfg).1 := by
  cases htun : m.tunnels.lookup cfg.name with
  | some tun =>
    rw [Add_fail m cfg (by simp [htun])]
    exact h
  | none =>
    have ht : ∀ n, (m.Add cfg).1.tunnels.lookup n =
        if n = cfg.name then
          some (NewTunnel m.sshConfig cfg.remoteHost cfg.remotePort cfg.localPort)
        else m.tunnels.lookup n := by
      intro n
      rw [Add_ok m cfg htun]
      exact smap_lookup_insert _ _ _ _
    have hc : ∀ n, (m.Add cfg).1.configs.lookup n =
        if n = cfg.name then some cfg else m.configs.lookup n := by
      intro n
      rw [Add_ok m cfg htun]
      exact smap_lookup_insert _ _ _ _
    have hd : (m.Add cfg).1.tunnelDones = m.tunnelDones := by
      rw [Add_ok m cfg htun]
    refine ⟨fun n hn => ?_, fun n hn => ?_, fun n hn => ?_, fun n c hcc => ?_⟩
    · rw [ht] at hn
      rw [hc]
      by_cases he : n = cfg.name
      · simp [he]
      · rw [if_neg he] at hn ⊢
        exact h.1 n hn
    · rw [hc] at hn
      rw [ht]
      by_cases he : n = cfg.name
      · simp [he]
      · rw [if_neg he] at hn ⊢
        exact h.2.1 n hn
    · rw [hd] at hn
      rw [ht]
      by_cases he : n = cfg.name
      · simp [he]
      · rw [if_neg he]
        exact h.2.2.1 n hn
    · rw [hc] at hcc
      by_cases he : n = cfg.name
      · rw [if_pos he] at hcc
        injection hcc with hcc
        subst hcc
        exact he.symm
      · rw [if_neg he] at hcc
        exact h.2.2.2 n c hcc

theorem WFl_Start (env : Env) (m : Manager) (name : String) (h : WFl m) :
    WFl (Manager.Start env m name).1 := by
  obtain ⟨ht, hc, hd, _, _⟩ := Start_spec env m name
  refine ⟨fun n hn => ?_, fun n hn => ?_, fun n hn => ?_, fun n c hcc => ?_⟩
  · rw [hc]
    exact h.1 n ((ht n).mp hn)
  · rw [hc] at hn
    exact (ht n).mpr (h.2.1 n hn)
  · rcases hd n hn with hk | ⟨hk, hsome⟩
    · exact (ht n).mpr (h.2.2.1 n hk)
    · subst hk
      exact (ht n).mpr hsome
  · rw [hc] at hcc
    exact h.2.2.2 n c hcc

theorem WFl_Stop (env : Env) (m : Manager) (name : String) (h : WFl m) :
    WFl (Manager.Stop env m name).1 := by
  obtain ⟨ht, hc, hd, _, _⟩ := Stop_spec env m name
  refine ⟨fun n hn => ?_, fun n hn => ?_, fun n hn => ?_, fun n c hcc => ?_⟩
  · rw [hc]
    exact h.1 n ((ht n).mp hn)
  · rw [hc] at hn
    exact (ht n).mpr (h.2.1 n hn)
  · rw [hd] at hn
    exact (ht n).mpr (h.2.2.1 n ((mem_eraseS _ _ _).mp hn).1)
  · rw [hc] at hcc
    exact h.2.2.2 n c hcc

theorem WFl_Restart (env : Env) (m : Manager) (name : String) (h : WFl m) :
    WFl (Manager.Restart env m name).1 := by
  obtain ⟨ht, hc, hd, _, _⟩ := Restart_spec env m name
  refine ⟨fun n hn => ?_, fun n hn => ?_, fun n hn => ?_, fun n c hcc => ?_⟩
  · rw [hc]
    exact h.1 n ((ht n).mp hn)
  · rw [hc] at hn
    exact (ht n).mpr (h.2.1 n hn)
  · rw [hd] at hn
    exact (ht n).mpr (h.2.2.1 n hn)
  · rw [hc] at hcc
    exact h.2.2.2 n c hcc

theorem WFl_Remove (env : Env) (m : Manager) (name : String) (h : WFl m) :
    WFl (Manager.Remove env m name).1 := by
  cases htun : m.tunnels.lookup name with
  | none =>
    have hres : (Manager.Remove env m name).1 =
        { m with tunnelDones := eraseS m.tunnelDones name } := by
      simp [Manager.Remove, Manager.stopAutoRestartForTunnel, htun]
    rw [hres]
    exact WFl_dones_eraseS m name h
  | some tun =>
    by_cases hrun : tun.status = Status.running
    · rcases hs : tun.Stop (env.stopOk name) with ⟨tun', err⟩
      cases err with
      | some e =>
        have hres : (Manager.Remove env m name).1 =
            { m with tunnels := m.tunnels.insert name tun',
                     tunnelDones := eraseS m.tunnelDones name } := by
          simp [Manager.Remove, Manager.stopAutoRestartForTunnel, htun, hrun, hs]
        rw [hres]
        exact WFl_tunnels_insert_present { m with tunnelDones := eraseS m.tunnelDones name }
          name tun' (by simp [htun]) (WFl_dones_eraseS m name h)
      | none =>
        have hres : (Manager.Remove env m name).1 =
            { m with tunnels := m.tunnels.erase name, configs := m.configs.erase name,
                     tunnelDones := eraseS m.tunnelDones name } := by
          simp [Manager.Remove, Manager.stopAutoRestartForTunnel, htun, hrun, hs]
        rw [hres]
        exact WFl_erase_both m name h
    · have hres : (Manager.Remove env m name).1 =
          { m with tunnels := m.tunnels.erase name, configs := m.configs.erase name,
                   tunnelDones := eraseS m.tunnelDones name } := by
        simp [Manager.Remove, Manager.stopAutoRestartForTunnel, htun, hrun]
      rw [hres]
      exact WFl_erase_both m name h

theorem WFl_startAllLoop (env : Env) (names : List String) :
    ∀ acc : Manager × List (String × String), WFl acc.1 → WFl (startAllLoop env names acc).1 := by
  induction names with
  | nil => exact fun acc h => h
  | cons name rest ih =>
    intro acc h
    rcases hs : Manager.Start env acc.1 name with ⟨m', err⟩
    have hm' : WFl m' := by
      have hw := WFl_Start env acc.1 name h
      rw [hs] at hw
      exact hw
    cases err with
    | some e =>
      have hstep : startAllLoop env (name :: rest) acc =
          startAllLoop env rest (m', acc.2 ++ [(name, e)]) := by
        simp [startAllLoop, hs]
      rw [hstep]
      exact ih _ hm'
    | none =>
      have hstep : startAllLoop env (name :: rest) acc =
          startAllLoop env rest (m', acc.2) := by
        simp [startAllLoop, hs]
      rw [hstep]
      exact ih _ hm'

theorem WFl_StartAll (env : Env) (m : Manager) (h : WFl m) : WFl (Manager.StartAll env m).1 :=
  WFl_startAllLoop env m.ListNames (m, []) h

theorem WFl_stopAllLoop (env : Env) (names : List String) :
    ∀ acc : Manager × List (String × String), WFl acc.1 → WFl (stopAllLoop env names acc).1 := by
  induction names with
  | nil => exact fun acc h => h
  | cons name rest ih =>
    intro acc h
    cases htun : acc.1.tunnels.lookup name with
    | none =>
      have hstep : stopAllLoop env (name :: rest) acc = stopAllLoop env rest acc := by
        simp [stopAllLoop, htun]
      rw [hstep]
      exact ih _ h
    | some tun =>
      rcases hs : tun.Stop (env.stopOk name) with ⟨tun', err⟩
      have hins : WFl { acc.1 with tunnels := acc.1.tunnels.insert name tun' } :=
        WFl_tunnels_insert_present acc.1 name tun' (by simp [htun]) h
      cases err with
      | some e =>
        have hstep : stopAllLoop env (name :: rest) acc =
            stopAllLoop env rest
              ({ acc.1 with tunnels := acc.1.tunnels.insert name tun' }, acc.2 ++ [(name, e)]) := by
          simp [stopAllLoop, htun, hs]
        rw [hstep]
        exact ih _ hins
      | none =>
        have hstep : stopAllLoop env (name :: rest) acc =
            stopAllLoop env rest
              ({ acc.1 with tunnels := acc.1.tunnels.insert name tun' }, acc.2) := by
          simp [stopAllLoop, htun, hs]
        rw [hstep]
        exact ih _ hins

theorem WFl_dones_clear (m : Manager) (h : WFl m) : WFl { m with tunnelDones := [] } :=
  ⟨h.1, h.2.1, fun n hn => absurd hn (List.not_mem_nil n), h.2.2.2⟩

theorem WFl_StopAll (env : Env) (m : Manager) (h : WFl m) : WFl (Manager.StopAll env m).1 :=
  WFl_stopAllLoop env m.tunnels.keys ({ m with tunnelDones := [] }, []) (WFl_dones_clear m h)

/-! ## The new-config map -/

theorem buildNewConfigs_go (L : List TunnelConfig) :
    ∀ acc : SMap TunnelConfig,
      (∀ n, (((L.foldl (fun a c => a.insert c.name c) acc).lookup n).isSome = true) ↔
        (((acc.lookup n).isSome = true) ∨ n ∈ L.map TunnelConfig.name))
      ∧ (∀ n c, (L.foldl (fun a c => a.insert c.name c) acc).lookup n = some c →
          (acc.lookup n = some c ∨ c.name = n)) := by
  induction L with
  | nil =>
    intro acc
    refine ⟨fun n => by simp, fun n c h => Or.inl h⟩
  | cons c0 rest ih =>
    intro acc
    constructor
    · intro n
      rw [List.foldl_cons]
      rw [(ih (acc.insert c0.name c0)).1 n]
      rw [smap_lookup_insert_isSome]
      simp only [List.map_cons, List.mem_cons]
      tauto
    · intro n c h
      rw [List.foldl_cons] at h
      rcases (ih (acc.insert c0.name c0)).2 n c h with h1 | h1
      · rw [smap_lookup_insert] at h1
        by_cases he : n = c0.name
        · rw [if_pos he] at h1
          injection h1 with h1
          subst h1
          exact Or.inr he.symm
        · rw [if_neg he] at h1
          exact Or.inl h1
      · exact Or.inr h1

theorem buildNewConfigs_isSome (L : List TunnelConfig) (n : String) :
    (((buildNewConfigs L).lookup n).isSome = true) ↔ n ∈ L.map TunnelConfig.name := by
  have := (buildNewConfigs_go L ∅).1 n
  simpa [buildNewConfigs] using this

theorem buildNewConfigs_keyed (L : List TunnelConfig) (n : String) (c : TunnelConfig)
    (h : (buildNewConfigs L).lookup n = some c) : c.name = n := by
  rcases (buildNewConfigs_go L ∅).2 n c h with h1 | h1
  · simp at h1
  · exact h1

theorem buildNewConfigs_entries_keyed (L : List TunnelConfig) :
    ∀ p ∈ (buildNewConfigs L).entries, (p.2 : TunnelConfig).name = p.1 := by
  intro p hp
  have hl : (buildNewConfigs L).lookup p.1 = some p.2 := by
    apply AList.mem_lookup_iff.mpr
    simpa using hp
  exact buildNewConfigs_keyed L p.1 p.2 hl

/-! ## Invariant through the reconcile phases -/

theorem WFl_reconcileRemoves (env : Env) (newNames : List String) (names : List String) :
    ∀ acc, WFl acc.1 → WFl (reconcileRemoves env newNames names acc).1 := by
  induction names with
  | nil => exact fun acc h => h
  | cons name rest ih =>
    intro acc h
    by_cases hmem : name ∈ newNames
    · have hstep : reconcileRemoves env newNames (name :: rest) acc =
          reconcileRemoves env newNames rest acc := by
        simp [reconcileRemoves, hmem]
      rw [hstep]
      exact ih acc h
    · have hstep : reconcileRemoves env newNames (name :: rest) acc =
          reconcileRemoves env newNames rest
            ((Manager.Remove env acc.1 name).1, acc.2 ++ [ReconcileOp.removedOp name]) := by
        simp [reconcileRemoves, hmem]
      rw [hstep]
      exact ih _ (WFl_Remove env acc.1 name h)

theorem WFl_reconcileAdds (env : Env) (currentNames : List String)
    (l : List ((_ : String) × TunnelConfig)) :
    ∀ acc, WFl acc.1 → WFl (reconcileAdds env currentNames l acc).1 := by
  induction l with
  | nil => exact fun acc h => h
  | cons e rest ih =>
    intro acc h
    by_cases hmem : e.1 ∈ currentNames
    · have hstep : reconcileAdds env currentNames (e :: rest) acc =
          reconcileAdds env currentNames rest acc := by
        simp [reconcileAdds, hmem]
      rw [hstep]
      exact ih acc h
    · rcases ha : Manager.Add acc.1 e.2 with ⟨m', err⟩
      have hm' : WFl m' := by
        have hw := WFl_Add acc.1 e.2 h
        rw [ha] at hw
        exact hw
      cases err with
      | some msg =>
        have hstep : reconcileAdds env currentNames (e :: rest) acc =
            reconcileAdds env currentNames rest (m', acc.2 ++ [ReconcileOp.addedOp e.1]) := by
          simp [reconcileAdds, hmem, ha]
        rw [hstep]
        exact ih _ hm'
      | none =>
        have hstep : reconcileAdds env currentNames (e :: rest) acc =
            reconcileAdds env currentNames rest
              ((Manager.Start env m' e.1).1, acc.2 ++ [ReconcileOp.addedOp e.1]) := by
          simp [reconcileAdds, hmem, ha]
        rw [hstep]
        exact ih _ (WFl_Start env m' e.1 hm')

theorem WFl_reconcileChanges (env : Env) (currentNames : List String)
    (l : List ((_ : String) × TunnelConfig)) :
    ∀ acc, (∀ p ∈ l, (p.2 : TunnelConfig).name = p.1) → WFl acc.1 →
      WFl (reconcileChanges env currentNames l acc).1 := by
  induction l with
  | nil => exact fun acc _ h => h
  | cons e rest ih =>
    intro acc hkeyed h
    have hkeyed' : ∀ p ∈ rest, (p.2 : TunnelConfig).name = p.1 :=
      fun p hp => hkeyed p (List.mem_cons_of_mem e hp)
    by_cases hmem : e.1 ∈ currentNames
    · cases hcfg : acc.1.configs.lookup e.1 with
      | none =>
        have hstep : reconcileChanges env currentNames (e :: rest) acc =
            reconcileChanges env currentNames rest acc := by
          simp [reconcileChanges, hmem, hcfg]
        rw [hstep]
        exact ih acc hkeyed' h
      | some oldCfg =>
        by_cases hch : tunnelConfigChanged oldCfg e.2 = true
        · have hstep : reconcileChanges env currentNames (e :: rest) acc =
              reconcileChanges env currentNames rest
                ((Manager.Restart env
                    { acc.1 with configs := acc.1.configs.insert e.1 e.2 } e.1).1,
                 acc.2 ++ [ReconcileOp.restartedOp e.1]) := by
            simp [reconcileChanges, hmem, hcfg, hch]
          rw [hstep]
          refine ih _ hkeyed' ?_
          refine WFl_Restart env _ e.1 ?_
          exact WFl_configs_insert_present acc.1 e.1 e.2 (by simp [hcfg])
            (hkeyed e (List.mem_cons_self e rest)) h
        · have hstep : reconcileChanges env currentNames (e :: rest) acc =
              reconcileChanges env currentNames rest acc := by
            simp [reconcileChanges, hmem, hcfg, hch]
          rw [hstep]
          exact ih acc hkeyed' h
    · have hstep : reconcileChanges env currentNames (e :: rest) acc =
          reconcileChanges env currentNames rest acc := by
        simp [reconcileChanges, hmem]
      rw [hstep]
      exact ih acc hkeyed' h

theorem WFl_Reconcile (env : Env) (m : Manager) (cfg : Config) (h : WFl m) :
    WFl (Manager.Reconcile env m cfg).1 := by
  have h0 : WFl { m with sshConfig := cfg.ssh } := ⟨h.1, h.2.1, h.2.2.1, h.2.2.2⟩
  exact WFl_reconcileChanges env _ _ _
    (buildNewConfigs_entries_keyed cfg.tunnelConfigs)
    (WFl_reconcileAdds env _ _ _
      (WFl_reconcileRemoves env _ _ _ h0))

theorem WFl_applyCall (env : Env) (m : Manager) (c : Call) (h : WFl m) :
    WFl (applyCall env m c) := by
  cases c with
  | addCall cfg => exact WFl_Add m cfg h
  | removeCall name => exact WFl_Remove env m name h
  | startCall name => exact WFl_Start env m name h
  | stopCall name => exact WFl_Stop env m name h
  | restartCall name => exact WFl_Restart env m name h
  | startAllCall => exact WFl_StartAll env m h
  | stopAllCall => exact WFl_StopAll env m h
  | reconcileCall cfg => exact WFl_Reconcile env m cfg h
  | closeCall =>
    by_cases hd : m.doneClosed = true
    · have hres : applyCall env m Call.closeCall = m := by
        simp [applyCall, Manager.Close, hd]
      rw [hres]
      exact h
    · have hres : applyCall env m Call.closeCall =
          (Manager.StopAll env { m with doneClosed := true }).1 := by
        simp [applyCall, Manager.Close, hd]
      rw [hres]
      exact WFl_StopAll env { m with doneClosed := true } ⟨h.1, h.2.1, h.2.2.1, h.2.2.2⟩

theorem WFl_applyCalls (env : Env) (calls : List Call) :
    ∀ m, WFl m → WFl (applyCalls env calls m) := by
  induction calls with
  | nil => exact fun m h => h
  | cons c rest ih =>
    intro m h
    have hstep : applyCalls env (c :: rest) m = applyCalls env rest (applyCall env m c) := rfl
    rw [hstep]
    exact ih _ (WFl_applyCall env m c h)

theorem WFl_NewManager (ssh : SSHConfig) : WFl (NewManager ssh) := by
  refine ⟨fun n hn => ?_, fun n hn => ?_, fun n hn => ?_, fun n c hc => ?_⟩
  · simp [NewManager] at hn
  · simp [NewManager] at hn
  · simp [NewManager] at hn
  · simp [NewManager] at hc

/-! ## Pointwise behaviour of the reconcile phases -/

theorem WFl_configs_none {m : Manager} (h : WFl m) {k : String}
    (hk : m.tunnels.lookup k = none) : m.configs.lookup k = none := by
  cases hc : m.configs.lookup k with
  | none => rfl
  | some cfg =>
    have := h.2.1 k (by simp [hc])
    rw [hk] at this
    simp at this

theorem reconcileRemoves_spec (env : Env) (newNames : List String)
    (hstop : ∀ k, env.stopOk k = true) (names : List String) :
    ∀ acc : Manager × List ReconcileOp, WFl acc.1 →
      (∀ n, n ∈ newNames ∨ n ∉ names →
        (reconcileRemoves env newNames names acc).1.tunnels.lookup n = acc.1.tunnels.lookup n
        ∧ (reconcileRemoves env newNames names acc).1.configs.lookup n = acc.1.configs.lookup n)
      ∧ (∀ n, n ∈ names → n ∉ newNames →
        (reconcileRemoves env newNames names acc).1.tunnels.lookup n = none
        ∧ (reconcileRemoves env newNames names acc).1.configs.lookup n = none)
      ∧ (reconcileRemoves env newNames names acc).1.sshConfig = acc.1.sshConfig
      ∧ (reconcileRemoves env newNames names acc).1.doneClosed = acc.1.doneClosed := by
  induction names with
  | nil =>
    intro acc _
    exact ⟨fun n _ => ⟨rfl, rfl⟩, fun n hn => absurd hn (List.not_mem_nil n), rfl, rfl⟩
  | cons name rest ih =>
    intro acc h
    by_cases hmem : name ∈ newNames
    · have hstep : reconcileRemoves env newNames (name :: rest) acc =
          reconcileRemoves env newNames rest acc := by
        simp [reconcileRemoves, hmem]
      rw [hstep]
      obtain ⟨p1, p2, ps, pd⟩ := ih acc h
      refine ⟨fun n hn => ?_, fun n hn hnew => ?_, ps, pd⟩
      · rcases hn with hn | hn
        · exact p1 n (Or.inl hn)
        · exact p1 n (Or.inr (fun hr => hn (List.mem_cons_of_mem name hr)))
      · rcases List.mem_cons.mp hn with hn1 | hn1
        · subst hn1
          exact absurd hmem hnew
        · exact p2 n hn1 hnew
    · have hstep : reconcileRemoves env newNames (name :: rest) acc =
          reconcileRemoves env newNames rest
            ((Manager.Remove env acc.1 name).1, acc.2 ++ [ReconcileOp.removedOp name]) := by
        simp [reconcileRemoves, hmem]
      rw [hstep]
      obtain ⟨rt, rc, rd, rs, rdc⟩ :=
        Remove_spec env acc.1 name (hstop name) (fun hk => WFl_configs_none h hk)
      have hwf1 : WFl (Manager.Remove env acc.1 name).1 := WFl_Remove env acc.1 name h
      obtain ⟨p1, p2, ps, pd⟩ := ih ((Manager.Remove env acc.1 name).1,
        acc.2 ++ [ReconcileOp.removedOp name]) hwf1
      refine ⟨fun n hn => ?_, fun n hn hnew => ?_, by rw [ps]; exact rs, by rw [pd]; exact rdc⟩
      · have hne : ¬ n = name := by
          rcases hn with hn | hn
          · intro he
            exact hmem (he ▸ hn)
          · intro he
            exact hn (by rw [he]; exact List.mem_cons_self name rest)
        have hn' : n ∈ newNames ∨ n ∉ rest := by
          rcases hn with hn | hn
          · exact Or.inl hn
          · exact Or.inr (fun hr => hn (List.mem_cons_of_mem name hr))
        obtain ⟨q1, q2⟩ := p1 n hn'
        refine ⟨?_, ?_⟩
        · rw [q1, rt n, if_neg hne]
        · rw [q2, rc n, if_neg hne]
      · by_cases hne : n = name
        · subst hne
          by_cases hr : n ∈ rest
          · exact p2 n hr hnew
          · obtain ⟨q1, q2⟩ := p1 n (Or.inr hr)
            refine ⟨?_, ?_⟩
            · rw [q1, rt n, if_pos rfl]
            · rw [q2, rc n, if_pos rfl]
        · rcases List.mem_cons.mp hn with hn1 | hn1
          · exact absurd hn1 hne
          · exact p2 n hn1 hnew

theorem reconcileAdds_spec (env : Env) (current : List String)
    (l : List ((_ : String) × TunnelConfig)) (hnd : l.NodupKeys)
    (hkeyed : ∀ p ∈ l, (p.2 : TunnelConfig).name = p.1) :
    ∀ acc : Manager × List ReconcileOp, WFl acc.1 →
      (∀ n, ((acc.1.tunnels.lookup n).isSome = true) → (n ∈ current ∨ n ∉ l.keys)) →
      (∀ n, (((reconcileAdds env current l acc).1.tunnels.lookup n).isSome = true) ↔
          (((acc.1.tunnels.lookup n).isSome = true) ∨ (n ∈ l.keys ∧ n ∉ current)))
      ∧ (∀ n, n ∈ current →
          (reconcileAdds env current l acc).1.configs.lookup n = acc.1.configs.lookup n)
      ∧ (∀ n, n ∉ l.keys →
          (reconcileAdds env current l acc).1.configs.lookup n = acc.1.configs.lookup n)
      ∧ (∀ n, n ∈ l.keys → n ∉ current →
          (reconcileAdds env current l acc).1.configs.lookup n = l.dlookup n)
      ∧ (reconcileAdds env current l acc).1.sshConfig = acc.1.sshConfig
      ∧ (reconcileAdds env current l acc).1.doneClosed = acc.1.doneClosed := by
  induction l with
  | nil =>
    intro acc _ _
    refine ⟨fun n => by simp [reconcileAdds, List.keys], fun n _ => rfl, fun n _ => rfl,
      fun n hn _ => absurd hn (by simp [List.keys]), rfl, rfl⟩
  | cons e rest ih =>
    obtain ⟨name, cfg⟩ := e
    intro acc h hcur
    have hname_rest : name ∉ rest.keys := List.not_mem_keys_of_nodupKeys_cons hnd
    have hnd' : rest.NodupKeys := List.nodupKeys_of_nodupKeys_cons hnd
    have hkeyed' : ∀ p ∈ rest, (p.2 : TunnelConfig).name = p.1 :=
      fun p hp => hkeyed p (List.mem_cons_of_mem _ hp)
    have hkey : cfg.name = name := hkeyed ⟨name, cfg⟩ (List.mem_cons_self _ rest)
    by_cases hmem : name ∈ current
    · have hstep : reconcileAdds env current (⟨name, cfg⟩ :: rest) acc =
          reconcileAdds env current rest acc := by
        simp [reconcileAdds, hmem]
      rw [hstep]
      have hcur' : ∀ n, ((acc.1.tunnels.lookup n).isSome = true) → (n ∈ current ∨ n ∉ rest.keys) := by
        intro n hn
        rcases hcur n hn with hc | hc
        · exact Or.inl hc
        · exact Or.inr (fun hr => hc (by rw [List.keys_cons]; exact List.mem_cons_of_mem _ hr))
      obtain ⟨pT, pc1, pc2, pc3, ps, pd⟩ := ih hnd' hkeyed' acc h hcur'
      refine ⟨fun n => ?_, pc1, fun n hn => ?_, fun n hn hnc => ?_, ps, pd⟩
      · rw [pT n]
        constructor
        · rintro (hx | ⟨hx1, hx2⟩)
          · exact Or.inl hx
          · exact Or.inr ⟨by rw [List.keys_cons]; exact List.mem_cons_of_mem _ hx1, hx2⟩
        · rintro (hx | ⟨hx1, hx2⟩)
          · exact Or.inl hx
          · rw [List.keys_cons] at hx1
            rcases List.mem_cons.mp hx1 with he | he
            · have he2 : n = name := he
              exact absurd hmem (he2 ▸ hx2)
            · exact Or.inr ⟨he, hx2⟩
      · rw [List.keys_cons] at hn
        exact pc2 n (fun hr => hn (List.mem_cons_of_mem _ hr))
      · rw [List.keys_cons] at hn
        rcases List.mem_cons.mp hn with he | he
        · have he2 : n = name := he
          exact absurd hmem (he2 ▸ hnc)
        · rw [pc3 n he hnc]
          exact (List.dlookup_cons_ne _ _ (fun hx : n = name => (hx ▸ hnc) hmem)).symm
    · have hnone : acc.1.tunnels.lookup name = none := by
        cases hx : acc.1.tunnels.lookup name with
        | none => rfl
        | some tun =>
          rcases hcur name (by simp [hx]) with hc | hc
          · exact absurd hc hmem
          · exact absurd (by rw [List.keys_cons]; exact List.mem_cons_self _ _) hc
      have hnone' : acc.1.tunnels.lookup cfg.name = none := by rw [hkey]; exact hnone
      have hadd := Add_ok acc.1 cfg hnone'
      have hstep : reconcileAdds env current (⟨name, cfg⟩ :: rest) acc =
          reconcileAdds env current rest
            ((Manager.Start env
                { acc.1 with
                    tunnels := acc.1.tunnels.insert cfg.name
                      (NewTunnel acc.1.sshConfig cfg.remoteHost cfg.remotePort cfg.localPort),
                    configs := acc.1.configs.insert cfg.name cfg } name).1,
             acc.2 ++ [ReconcileOp.addedOp name]) := by
        simp [reconcileAdds, hmem, hadd]
      set mAdd : Manager :=
        { acc.1 with
            tunnels := acc.1.tunnels.insert cfg.name
              (NewTunnel acc.1.sshConfig cfg.remoteHost cfg.remotePort cfg.localPort),
            configs := acc.1.configs.insert cfg.name cfg } with hmAdd
      rw [hstep]
      have hwfAdd : WFl mAdd := by
        have hw := WFl_Add acc.1 cfg h
        rw [hadd] at hw
        exact hw
      have hwfS : WFl (Manager.Start env mAdd name).1 := WFl_Start env mAdd name hwfAdd
      obtain ⟨sT, sC, _, sS, sD⟩ := Start_spec env mAdd name
      have hT2 : ∀ n, (((Manager.Start env mAdd name).1.tunnels.lookup n).isSome = true) ↔
          (n = name ∨ ((acc.1.tunnels.lookup n).isSome = true)) := by
        intro n
        rw [sT n]
        show (((acc.1.tunnels.insert cfg.name
            (NewTunnel acc.1.sshConfig cfg.remoteHost cfg.remotePort cfg.localPort)).lookup n).isSome
              = true) ↔ _
        rw [smap_lookup_insert_isSome, hkey]
      have hC2 : ∀ n, (Manager.Start env mAdd name).1.configs.lookup n =
          (acc.1.configs.insert cfg.name cfg).lookup n := by
        intro n
        rw [sC]
      have hcur' : ∀ n, (((Manager.Start env mAdd name).1.tunnels.lookup n).isSome = true) →
          (n ∈ current ∨ n ∉ rest.keys) := by
        intro n hn
        rcases (hT2 n).mp hn with he | he
        · exact Or.inr (he ▸ hname_rest)
        · rcases hcur n he with hc | hc
          · exact Or.inl hc
          · exact Or.inr (fun hr => hc (by rw [List.keys_cons]; exact List.mem_cons_of_mem _ hr))
      obtain ⟨pT, pc1, pc2, pc3, ps, pd⟩ :=
        ih hnd' hkeyed' ((Manager.Start env mAdd name).1, acc.2 ++ [ReconcileOp.addedOp name])
          hwfS hcur'
      refine ⟨fun n => ?_, fun n hn => ?_, fun n hn => ?_, fun n hn hnc => ?_, ?_, ?_⟩
      · rw [pT n, hT2 n]
        constructor
        · rintro ((he | hx) | ⟨hx1, hx2⟩)
          · exact Or.inr ⟨by rw [he, List.keys_cons]; exact List.mem_cons_self _ _, he ▸ hmem⟩
          · exact Or.inl hx
          · exact Or.inr ⟨by rw [List.keys_cons]; exact List.mem_cons_of_mem _ hx1, hx2⟩
        · rintro (hx | ⟨hx1, hx2⟩)
          · exact Or.inl (Or.inr hx)
          · rw [List.keys_cons] at hx1
            rcases List.mem_cons.mp hx1 with he | he
            · exact Or.inl (Or.inl he)
            · exact Or.inr ⟨he, hx2⟩
      · have hne : ¬ n = cfg.name := by
          rw [hkey]
          intro he
          exact hmem (he ▸ hn)
        rw [pc1 n hn, hC2 n, AList.lookup_insert_ne hne]
      · rw [List.keys_cons] at hn
        have hne : ¬ n = cfg.name := by
          rw [hkey]
          intro he
          exact hn (by rw [he]; exact List.mem_cons_self _ _)
        have hnr : n ∉ rest.keys := fun hr => hn (List.mem_cons_of_mem _ hr)
        rw [pc2 n hnr, hC2 n, AList.lookup_insert_ne hne]
      · rw [List.keys_cons] at hn
        rcases List.mem_cons.mp hn with he | he
        · subst he
          rw [pc2 n hname_rest, hC2 n, hkey, AList.lookup_insert]
          exact (List.dlookup_cons_eq rest n cfg).symm
        · have hne : ¬ n = name := by
            intro hx
            exact hname_rest (hx ▸ he)
          rw [pc3 n he hnc]
          exact (List.dlookup_cons_ne rest ⟨name, cfg⟩ hne).symm
      · rw [ps, sS]
      · rw [pd, sD]

theorem tunnelConfigChanged_self (c : TunnelConfig) : tunnelConfigChanged c c = false := by
  simp [tunnelConfigChanged]

theorem tunnelConfig_eq_of_unchanged (a b : TunnelConfig)
    (h : tunnelConfigChanged a b = false) (hn : a.name = b.name) : a = b := by
  unfold tunnelConfigChanged at h
  split_ifs at h with h1 h2 h3 h4 h5
  obtain ⟨an, ah, ap, al, ar⟩ := a
  obtain ⟨bn, bh, bp, bl, br⟩ := b
  obtain ⟨ae, ai⟩ := ar
  obtain ⟨be, bi⟩ := br
  simp only at h1 h2 h3 h4 h5 hn
  subst h1
  subst h2
  subst h3
  subst h4
  subst h5
  subst hn
  rfl

theorem reconcileChanges_spec (env : Env) (current : List String)
    (l : List ((_ : String) × TunnelConfig)) (hnd : l.NodupKeys)
    (hkeyed : ∀ p ∈ l, (p.2 : TunnelConfig).name = p.1) :
    ∀ acc : Manager × List ReconcileOp, WFl acc.1 →
      (∀ p ∈ l, p.1 ∈ current → ((acc.1.configs.lookup p.1).isSome = true)) →
      (∀ n, (((reconcileChanges env current l acc).1.tunnels.lookup n).isSome = true) ↔
          ((acc.1.tunnels.lookup n).isSome = true))
      ∧ (∀ n, n ∉ l.keys ∨ n ∉ current →
          (reconcileChanges env current l acc).1.configs.lookup n = acc.1.configs.lookup n)
      ∧ (∀ n, n ∈ l.keys → n ∈ current →
          (reconcileChanges env current l acc).1.configs.lookup n = l.dlookup n)
      ∧ (reconcileChanges env current l acc).1.sshConfig = acc.1.sshConfig
      ∧ (reconcileChanges env current l acc).1.doneClosed = acc.1.doneClosed := by
  induction l with
  | nil =>
    intro acc _ _
    exact ⟨fun n => Iff.rfl, fun n _ => rfl,
      fun n hn _ => absurd hn (by simp [List.keys]), rfl, rfl⟩
  | cons e rest ih =>
    obtain ⟨name, cfg⟩ := e
    intro acc h hpres
    have hname_rest : name ∉ rest.keys := List.not_mem_keys_of_nodupKeys_cons hnd
    have hnd' : rest.NodupKeys := List.nodupKeys_of_nodupKeys_cons hnd
    have hkeyed' : ∀ p ∈ rest, (p.2 : TunnelConfig).name = p.1 :=
      fun p hp => hkeyed p (List.mem_cons_of_mem _ hp)
    have hkey : cfg.name = name := hkeyed ⟨name, cfg⟩ (List.mem_cons_self _ rest)
    by_cases hmem : name ∈ current
    · have hps : (acc.1.configs.lookup name).isSome = true :=
        hpres ⟨name, cfg⟩ (List.mem_cons_self _ rest) hmem
      cases hcfg : acc.1.configs.lookup name with
      | none => rw [hcfg] at hps; simp at hps
      | some oldCfg =>
        by_cases hch : tunnelConfigChanged oldCfg cfg = true
        · have hstep : reconcileChanges env current (⟨name, cfg⟩ :: rest) acc =
              reconcileChanges env current rest
                ((Manager.Restart env
                    { acc.1 with configs := acc.1.configs.insert name cfg } name).1,
                 acc.2 ++ [ReconcileOp.restartedOp name]) := by
            simp [reconcileChanges, hmem, hcfg, hch]
          rw [hstep]
          set mIns : Manager := { acc.1 with configs := acc.1.configs.insert name cfg }
            with hmIns
          have hwfI : WFl mIns :=
            WFl_configs_insert_present acc.1 name cfg (by simp [hcfg]) hkey h
          have hwfR : WFl (Manager.Restart env mIns name).1 := WFl_Restart env mIns name hwfI
          obtain ⟨rT, rC, _, rS, rD⟩ := Restart_spec env mIns name
          have hC2 : ∀ n, (Manager.Restart env mIns name).1.configs.lookup n =
              (acc.1.configs.insert name cfg).lookup n := by
            intro n
            rw [rC]
          have hT2 : ∀ n, (((Manager.Restart env mIns name).1.tunnels.lookup n).isSome = true) ↔
              ((acc.1.tunnels.lookup n).isSome = true) := fun n => rT n
          have hpres' : ∀ p ∈ rest, p.1 ∈ current →
              (((Manager.Restart env mIns name).1.configs.lookup p.1).isSome = true) := by
            intro p hp hpc
            rw [hC2, smap_lookup_insert_isSome]
            by_cases he : p.1 = name
            · exact Or.inl he
            · exact Or.inr (hpres p (List.mem_cons_of_mem _ hp) hpc)
          obtain ⟨pT, pc1, pc2, ps, pd⟩ :=
            ih hnd' hkeyed'
              ((Manager.Restart env mIns name).1, acc.2 ++ [ReconcileOp.restartedOp name])
              hwfR hpres'
          refine ⟨fun n => ?_, fun n hn => ?_, fun n hn hnc => ?_, ?_, ?_⟩
          · rw [pT n, hT2 n]
          · have hne : ¬ n = name := by
              rcases hn with hn | hn
              · intro he
                exact hn (by rw [he, List.keys_cons]; exact List.mem_cons_self _ _)
              · intro he
                exact hn (he ▸ hmem)
            have hn' : n ∉ rest.keys ∨ n ∉ current := by
              rcases hn with hn | hn
              · rw [List.keys_cons] at hn
                exact Or.inl (fun hr => hn (List.mem_cons_of_mem _ hr))
              · exact Or.inr hn
            rw [pc1 n hn', hC2 n, AList.lookup_insert_ne hne]
          · rw [List.keys_cons] at hn
            rcases List.mem_cons.mp hn with he | he
            · have he2 : n = name := he
              subst he2
              rw [pc1 n (Or.inl hname_rest), hC2 n, AList.lookup_insert]
              exact (List.dlookup_cons_eq rest n cfg).symm
            · have hne : ¬ n = name := fun hx => hname_rest (hx ▸ he)
              rw [pc2 n he hnc]
              exact (List.dlookup_cons_ne rest ⟨name, cfg⟩ hne).symm
          · rw [ps, rS]
          · rw [pd, rD]
        · have hold : oldCfg = cfg := by
            refine tunnelConfig_eq_of_unchanged oldCfg cfg ?_ ?_
            · cases hx : tunnelConfigChanged oldCfg cfg with
              | false => rfl
              | true => exact absurd hx hch
            · rw [hkey]
              exact h.2.2.2 name oldCfg hcfg
          have hstep : reconcileChanges env current (⟨name, cfg⟩ :: rest) acc =
              reconcileChanges env current rest acc := by
            simp [reconcileChanges, hmem, hcfg, hch]
          rw [hstep]
          have hpres' : ∀ p ∈ rest, p.1 ∈ current →
              ((acc.1.configs.lookup p.1).isSome = true) :=
            fun p hp hpc => hpres p (List.mem_cons_of_mem _ hp) hpc
          obtain ⟨pT, pc1, pc2, ps, pd⟩ := ih hnd' hkeyed' acc h hpres'
          refine ⟨pT, fun n hn => ?_, fun n hn hnc => ?_, ps, pd⟩
          · have hn' : n ∉ rest.keys ∨ n ∉ current := by
              rcases hn with hn | hn
              · rw [List.keys_cons] at hn
                exact Or.inl (fun hr => hn (List.mem_cons_of_mem _ hr))
              · exact Or.inr hn
            exact pc1 n hn'
          · rw [List.keys_cons] at hn
            rcases List.mem_cons.mp hn with he | he
            · have he2 : n = name := he
              subst he2
              rw [pc1 n (Or.inl hname_rest), hcfg, hold]
              exact (List.dlookup_cons_eq rest n cfg).symm
            · have hne : ¬ n = name := fun hx => hname_rest (hx ▸ he)
              rw [pc2 n he hnc]
              exact (List.dlookup_cons_ne rest ⟨name, cfg⟩ hne).symm
    · have hstep : reconcileChanges env current (⟨name, cfg⟩ :: rest) acc =
          reconcileChanges env current rest acc := by
        simp [reconcileChanges, hmem]
      rw [hstep]
      have hpres' : ∀ p ∈ rest, p.1 ∈ current →
          ((acc.1.configs.lookup p.1).isSome = true) :=
        fun p hp hpc => hpres p (List.mem_cons_of_mem _ hp) hpc
      obtain ⟨pT, pc1, pc2, ps, pd⟩ := ih hnd' hkeyed' acc h hpres'
      refine ⟨pT, fun n hn => ?_, fun n hn hnc => ?_, ps, pd⟩
      · have hn' : n ∉ rest.keys ∨ n ∉ current := by
          rcases hn with hn | hn
          · rw [List.keys_cons] at hn
            exact Or.inl (fun hr => hn (List.mem_cons_of_mem _ hr))
          · exact Or.inr hn
        exact pc1 n hn'
      · rw [List.keys_cons] at hn
        rcases List.mem_cons.mp hn with he | he
        · have he2 : n = name := he
          exact absurd (he2 ▸ hnc) hmem
        · have hne : ¬ n = name := fun hx => hname_rest (hx ▸ he)
          rw [pc2 n he hnc]
          exact (List.dlookup_cons_ne rest ⟨name, cfg⟩ hne).symm

/-! ## The reconcile master lemma -/

theorem Reconcile_spec (env : Env) (m : Manager) (cfg : Config)
    (hstop : ∀ k, env.stopOk k = true) (hwf : WFl m) :
    (∀ n, (((Manager.Reconcile env m cfg).1.tunnels.lookup n).isSome = true) ↔
        n ∈ cfg.tunnelConfigs.map TunnelConfig.name)
    ∧ (∀ n, (Manager.Reconcile env m cfg).1.configs.lookup n =
        (buildNewConfigs cfg.tunnelConfigs).lookup n)
    ∧ WFl (Manager.Reconcile env m cfg).1
    ∧ (Manager.Reconcile env m cfg).1.sshConfig = cfg.ssh
    ∧ (Manager.Reconcile env m cfg).1.doneClosed = m.doneClosed := by
  set m0 : Manager := { m with sshConfig := cfg.ssh } with hm0
  set current : List String := m0.ListNames with hcurrent
  set newNames : List String := cfg.tunnelConfigs.map TunnelConfig.name with hnewNames
  set B : SMap TunnelConfig := buildNewConfigs cfg.tunnelConfigs with hB
  set acc1 : Manager × List ReconcileOp := reconcileRemoves env newNames current (m0, [])
    with hacc1
  set acc2 : Manager × List ReconcileOp := reconcileAdds env current B.entries acc1 with hacc2
  have hred : Manager.Reconcile env m cfg = reconcileChanges env current B.entries acc2 := rfl
  have hwf0 : WFl m0 := ⟨hwf.1, hwf.2.1, hwf.2.2.1, hwf.2.2.2⟩
  have hkeys_mem : ∀ n, n ∈ current ↔ ((m0.tunnels.lookup n).isSome = true) := by
    intro n
    rw [hcurrent]
    show n ∈ m0.tunnels.keys ↔ _
    rw [← AList.mem_keys, ← AList.lookup_isSome]
  have hlkeys : ∀ n, n ∈ B.entries.keys ↔ n ∈ newNames := by
    intro n
    show n ∈ B.keys ↔ _
    rw [← AList.mem_keys, ← AList.lookup_isSome, hB, buildNewConfigs_isSome, hnewNames]
  have hdl : ∀ n, B.entries.dlookup n = B.lookup n := fun n => rfl
  have hnd : B.entries.NodupKeys := B.nodupKeys
  have hkeyedl : ∀ p ∈ B.entries, (p.2 : TunnelConfig).name = p.1 := by
    rw [hB]
    exact buildNewConfigs_entries_keyed cfg.tunnelConfigs
  obtain ⟨p1, p2, ps1, pd1⟩ := reconcileRemoves_spec env newNames hstop current (m0, []) hwf0
  have hwf1 : WFl acc1.1 := WFl_reconcileRemoves env newNames current (m0, []) hwf0
  have hcur1 : ∀ n, ((acc1.1.tunnels.lookup n).isSome = true) → n ∈ current := by
    intro n hn
    by_cases hc : n ∈ current
    · exact hc
    · obtain ⟨q1, _⟩ := p1 n (Or.inr hc)
      rw [hacc1, q1] at hn
      exact absurd ((hkeys_mem n).mpr hn) hc
  obtain ⟨aT, ac1, ac2, ac3, as2, ad2⟩ :=
    reconcileAdds_spec env current B.entries hnd hkeyedl acc1 hwf1
      (fun n hn => Or.inl (hcur1 n hn))
  have hwf2 : WFl acc2.1 := WFl_reconcileAdds env current B.entries acc1 hwf1
  have hpres : ∀ p ∈ B.entries, p.1 ∈ current → ((acc2.1.configs.lookup p.1).isSome = true) := by
    intro p hp hpc
    have hpk : p.1 ∈ B.entries.keys := List.mem_keys_of_mem hp
    have hpn : p.1 ∈ newNames := (hlkeys p.1).mp hpk
    rw [hacc2, ac1 p.1 hpc]
    obtain ⟨_, q2⟩ := p1 p.1 (Or.inl hpn)
    rw [hacc1, q2]
    exact hwf0.1 p.1 ((hkeys_mem p.1).mp hpc)
  obtain ⟨cT, cc1, cc2, cs3, cd3⟩ :=
    reconcileChanges_spec env current B.entries hnd hkeyedl acc2 hwf2 hpres
  have hwf3 : WFl (reconcileChanges env current B.entries acc2).1 :=
    WFl_reconcileChanges env current B.entries acc2 hkeyedl hwf2
  refine ⟨fun n => ?_, fun n => ?_, by rw [hred]; exact hwf3, ?_, ?_⟩
  · rw [hred, cT n, aT n]
    constructor
    · rintro (hx | ⟨hx1, hx2⟩)
      · by_cases hne : n ∈ newNames
        · exact hne
        · by_cases hc : n ∈ current
          · obtain ⟨q1, _⟩ := p2 n hc hne
            rw [hacc1, q1] at hx
            simp at hx
          · obtain ⟨q1, _⟩ := p1 n (Or.inr hc)
            rw [hacc1, q1] at hx
            exact absurd ((hkeys_mem n).mpr hx) hc
      · exact (hlkeys n).mp hx1
    · intro hn
      by_cases hc : n ∈ current
      · obtain ⟨q1, _⟩ := p1 n (Or.inl hn)
        refine Or.inl ?_
        rw [hacc1, q1]
        exact (hkeys_mem n).mp hc
      · exact Or.inr ⟨(hlkeys n).mpr hn, hc⟩
  · rw [hred]
    by_cases hin : n ∈ B.entries.keys
    · by_cases hc : n ∈ current
      · rw [cc2 n hin hc]
        exact hdl n
      · rw [cc1 n (Or.inr hc), hacc2, ac3 n hin hc]
        exact hdl n
    · have hBnone : B.lookup n = none :=
        AList.lookup_eq_none.mpr (fun hmem => hin (AList.mem_keys.mp hmem))
    
      rw [cc1 n (Or.inl hin), hacc2, ac2 n hin, hBnone]
      have hnew : n ∉ newNames := fun hx => hin ((hlkeys n).mpr hx)
      by_cases hc : n ∈ current
      · obtain ⟨_, q2⟩ := p2 n hc hnew
        rw [hacc1, q2]
      · obtain ⟨_, q2⟩ := p1 n (Or.inr hc)
        rw [hacc1, q2]
        refine WFl_configs_none hwf0 ?_
        cases hx : m0.tunnels.lookup n with
        | none => rfl
        | some t => exact absurd ((hkeys_mem n).mpr (by simp [hx])) hc
  · rw [hred, cs3, as2, ps1]
  · rw [hred, cd3, ad2, pd1]

/-! ## Second-reconcile no-ops -/

theorem reconcileRemoves_noop (env : Env) (newNames : List String) (names : List String)
    (acc : Manager × List ReconcileOp) (h : ∀ n ∈ names, n ∈ newNames) :
    reconcileRemoves env newNames names acc = acc := by
  induction names with
  | nil => rfl
  | cons name rest ih =>
    have hmem : name ∈ newNames := h name (List.mem_cons_self _ _)
    have hstep : reconcileRemoves env newNames (name :: rest) acc =
        reconcileRemoves env newNames rest acc := by
      simp [reconcileRemoves, hmem]
    rw [hstep]
    exact ih (fun n hn => h n (List.mem_cons_of_mem _ hn))

theorem reconcileAdds_noop (env : Env) (current : List String)
    (l : List ((_ : String) × TunnelConfig)) (acc : Manager × List ReconcileOp)
    (h : ∀ p ∈ l, p.1 ∈ current) :
    reconcileAdds env current l acc = acc := by
  induction l with
  | nil => rfl
  | cons e rest ih =>
    have hmem : e.1 ∈ current := h e (List.mem_cons_self _ _)
    have hstep : reconcileAdds env current (e :: rest) acc =
        reconcileAdds env current rest acc := by
      simp [reconcileAdds, hmem]
    rw [hstep]
    exact ih (fun p hp => h p (List.mem_cons_of_mem _ hp))

theorem reconcileChanges_noop (env : Env) (current : List String)
    (l : List ((_ : String) × TunnelConfig)) (acc : Manager × List ReconcileOp)
    (h : ∀ p ∈ l, p.1 ∈ current ∧ acc.1.configs.lookup p.1 = some p.2) :
    reconcileChanges env current l acc = acc := by
  induction l with
  | nil => rfl
  | cons e rest ih =>
    obtain ⟨hmem, hcfg⟩ := h e (List.mem_cons_self _ _)
    have hstep : reconcileChanges env current (e :: rest) acc =
        reconcileChanges env current rest acc := by
      simp [reconcileChanges, hmem, hcfg, tunnelConfigChanged_self]
    rw [hstep]
    exact ih (fun p hp => h p (List.mem_cons_of_mem _ hp))

theorem Reconcile_idem (env : Env) (m : Manager) (cfg : Config)
    (hstop : ∀ k, env.stopOk k = true) (hwf : WFl m) :
    Manager.Reconcile env (Manager.Reconcile env m cfg).1 cfg =
      ((Manager.Reconcile env m cfg).1, []) := by
  obtain ⟨rT, rC, _, rssh, _⟩ := Reconcile_spec env m cfg hstop hwf
  set m1 : Manager := (Manager.Reconcile env m cfg).1 with hm1
  have hm0 : ({ m1 with sshConfig := cfg.ssh } : Manager) = m1 := by
    rw [← rssh]
  have hexp : Manager.Reconcile env m1 cfg =
      reconcileChanges env ({ m1 with sshConfig := cfg.ssh } : Manager).ListNames
        (buildNewConfigs cfg.tunnelConfigs).entries
        (reconcileAdds env ({ m1 with sshConfig := cfg.ssh } : Manager).ListNames
          (buildNewConfigs cfg.tunnelConfigs).entries
          (reconcileRemoves env (cfg.tunnelConfigs.map TunnelConfig.name)
            ({ m1 with sshConfig := cfg.ssh } : Manager).ListNames
            (({ m1 with sshConfig := cfg.ssh } : Manager), []))) := rfl
  rw [hexp, hm0]
  have hkeys : ∀ n, n ∈ m1.ListNames ↔ ((m1.tunnels.lookup n).isSome = true) := by
    intro n
    show n ∈ m1.tunnels.keys ↔ _
    rw [← AList.mem_keys, ← AList.lookup_isSome]
  have hnoop1 : reconcileRemoves env (cfg.tunnelConfigs.map TunnelConfig.name)
      m1.ListNames (m1, []) = (m1, []) := by
    refine reconcileRemoves_noop env _ _ _ (fun n hn => ?_)
    exact (rT n).mp ((hkeys n).mp hn)
  rw [hnoop1]
  have hincur : ∀ p ∈ (buildNewConfigs cfg.tunnelConfigs).entries, p.1 ∈ m1.ListNames := by
    intro p hp
    have hpk : p.1 ∈ (buildNewConfigs cfg.tunnelConfigs).entries.keys := List.mem_keys_of_mem hp
    have : (((buildNewConfigs cfg.tunnelConfigs).lookup p.1).isSome = true) := by
      show ((buildNewConfigs cfg.tunnelConfigs).entries.dlookup p.1).isSome = true
      exact List.dlookup_isSome.mpr hpk
    rw [buildNewConfigs_isSome] at this
    exact (hkeys p.1).mpr ((rT p.1).mpr this)
  have hnoop2 : reconcileAdds env m1.ListNames
      (buildNewConfigs cfg.tunnelConfigs).entries (m1, []) = (m1, []) :=
    reconcileAdds_noop env _ _ _ hincur
  rw [hnoop2]
  refine reconcileChanges_noop env _ _ _ (fun p hp => ⟨hincur p hp, ?_⟩)
  rw [rC p.1]
  refine AList.mem_lookup_iff.mpr ?_
  simpa using hp

/-! ## The validation iff -/

theorem validateTunnels_none_iff (l : List TunnelConfig) :
    ∀ (i : Nat) (names : List String) (ports : List Int),
      validateTunnels i names ports l = none ↔
        ((∀ t ∈ l, tunnelOk t)
         ∧ (l.map TunnelConfig.name).Nodup
         ∧ (∀ t ∈ l, t.name ∉ names)
         ∧ (l.map TunnelConfig.localPort).Nodup
         ∧ (∀ t ∈ l, t.localPort ∉ ports)) := by
  induction l with
  | nil =>
    intro i names ports
    simp [validateTunnels]
  | cons t rest ih =>
    intro i names ports
    simp only [validateTunnels]
    by_cases h1 : t.name = ""
    · rw [if_pos h1]
      constructor
      · intro hx; simp at hx
      · intro hr
        exact absurd h1 (hr.1 t (List.mem_cons_self _ _)).1
    · rw [if_neg h1]
      by_cases h2 : t.name ∈ names
      · rw [if_pos h2]
        constructor
        · intro hx; simp at hx
        · intro hr
          exact absurd h2 (hr.2.2.1 t (List.mem_cons_self _ _))
      · rw [if_neg h2]
        by_cases h3 : t.remoteHost = ""
        · rw [if_pos h3]
          constructor
          · intro hx; simp at hx
          · intro hr
            exact absurd h3 (hr.1 t (List.mem_cons_self _ _)).2.1
        · rw [if_neg h3]
          by_cases h4 : t.remotePort ≤ 0
          · rw [if_pos h4]
            constructor
            · intro hx; simp at hx
            · intro hr
              have := (hr.1 t (List.mem_cons_self _ _)).2.2.1
              omega
          · rw [if_neg h4]
            by_cases h5 : t.localPort ≤ 0
            · rw [if_pos h5]
              constructor
              · intro hx; simp at hx
              · intro hr
                have := (hr.1 t (List.mem_cons_self _ _)).2.2.2.1
                omega
            · rw [if_neg h5]
              by_cases h6 : t.localPort ∈ ports
              · rw [if_pos h6]
                constructor
                · intro hx; simp at hx
                · intro hr
                  exact absurd h6 (hr.2.2.2.2 t (List.mem_cons_self _ _))
              · rw [if_neg h6]
                by_cases h7 : t.autoRestart.enabled = true ∧ t.autoRestart.interval ≤ 0
                · rw [if_pos h7]
                  constructor
                  · intro hx; simp at hx
                  · intro hr
                    have := (hr.1 t (List.mem_cons_self _ _)).2.2.2.2 h7.1
                    have h72 := h7.2
                    omega
                · rw [if_neg h7]
                  rw [ih (i + 1) (t.name :: names) (t.localPort :: ports)]
                  constructor
                  · rintro ⟨hA, hB, hC, hD, hE⟩
                    refine ⟨?_, ?_, ?_, ?_, ?_⟩
                    · intro t2 ht2
                      rcases List.mem_cons.mp ht2 with he | he
                      · subst he
                        refine ⟨h1, h3, by omega, by omega, fun hen => ?_⟩
                        by_contra hip
                        exact h7 ⟨hen, by omega⟩
                      · exact hA t2 he
                    · rw [List.map_cons, List.nodup_cons]
                      refine ⟨?_, hB⟩
                      intro hmem
                      obtain ⟨t2, ht2, heq⟩ := List.mem_map.mp hmem
                      have hni := hC t2 ht2
                      rw [List.mem_cons, not_or] at hni
                      exact hni.1 heq
                    · intro t2 ht2
                      rcases List.mem_cons.mp ht2 with he | he
                      · subst he
                        exact h2
                      · have hni := hC t2 he
                        rw [List.mem_cons, not_or] at hni
                        exact hni.2
                    · rw [List.map_cons, List.nodup_cons]
                      refine ⟨?_, hD⟩
                      intro hmem
                      obtain ⟨t2, ht2, heq⟩ := List.mem_map.mp hmem
                      have hni := hE t2 ht2
                      rw [List.mem_cons, not_or] at hni
                      exact hni.1 heq
                    · intro t2 ht2
                      rcases List.mem_cons.mp ht2 with he | he
                      · subst he
                        exact h6
                      · have hni := hE t2 he
                        rw [List.mem_cons, not_or] at hni
                        exact hni.2
                  · rintro ⟨hA, hB, hC, hD, hE⟩
                    rw [List.map_cons, List.nodup_cons] at hB hD
                    refine ⟨fun t2 ht2 => hA t2 (List.mem_cons_of_mem _ ht2), hB.2,
                      fun t2 ht2 => ?_, hD.2, fun t2 ht2 => ?_⟩
                    · rw [List.mem_cons, not_or]
                      refine ⟨fun heq => hB.1 ?_, hC t2 (List.mem_cons_of_mem _ ht2)⟩
                      rw [← heq]
                      exact List.mem_map_of_mem TunnelConfig.name ht2
                    · rw [List.mem_cons, not_or]
                      refine ⟨fun heq => hD.1 ?_, hE t2 (List.mem_cons_of_mem _ ht2)⟩
                      rw [← heq]
                      exact List.mem_map_of_mem TunnelConfig.localPort ht2

theorem Validate_none_iff (c : Config) :
    c.Validate = none ↔
      (c.ssh.Validate = none ∧ ¬ c.tunnelConfigs = [] ∧ TunnelEntriesOk c) := by
  unfold Config.Validate
  cases hs : c.ssh.Validate with
  | some msg => simp [hs]
  | none =>
    by_cases he : c.tunnelConfigs = []
    · simp [he]
    · rw [if_neg he]
      rw [validateTunnels_none_iff]
      unfold TunnelEntriesOk
      constructor
      · rintro ⟨hA, hB, _, hD, _⟩
        exact ⟨rfl, he, hA, hB, hD⟩
      · rintro ⟨_, _, hA, hB, hD⟩
        exact ⟨hA, hB, fun t _ => List.not_mem_nil _, hD, fun t _ => List.not_mem_nil _⟩

/-! ## Environment expansion lemmas -/

theorem alphaNum_ne_brace {c : Char} (h : isAlphaNum c = true) : ¬ c = '{' := by
  intro he
  subst he
  simp [isAlphaNum] at h

theorem alphaNum_ne_rbrace {c : Char} (h : isAlphaNum c = true) : ¬ c = '}' := by
  intro he
  subst he
  simp [isAlphaNum] at h

theorem alphaNum_ne_dollar {c : Char} (h : isAlphaNum c = true) : ¬ c = '$' := by
  intro he
  subst he
  simp [isAlphaNum] at h

theorem braceScan_spec (tail : List Char) :
    ∀ (name acc : List Char) (i : Nat), (∀ c ∈ name, ¬ c = '}') → 2 ≤ i + name.length →
      braceScan (name ++ '}' :: tail) acc i = (acc ++ name, i + name.length + 1) := by
  intro name
  induction name with
  | nil =>
    intro acc i _ hi
    simp only [List.length_nil, Nat.add_zero] at hi
    have hne : ¬ i = 1 := by omega
    simp [braceScan, hne]
  | cons c n ih =>
    intro acc i hbr hi
    have hc : ¬ c = '}' := hbr c (List.mem_cons_self _ _)
    have hstep : braceScan ((c :: n) ++ '}' :: tail) acc i =
        braceScan (n ++ '}' :: tail) (acc ++ [c]) (i + 1) := by
      simp [braceScan, hc]
    rw [hstep]
    rw [ih (acc ++ [c]) (i + 1) (fun c2 h2 => hbr c2 (List.mem_cons_of_mem _ h2))
      (by simp only [List.length_cons] at hi ⊢; omega)]
    rw [Prod.mk.injEq]
    refine ⟨by simp, by simp only [List.length_cons]; omega⟩

theorem getShellName_brace (name tail : List Char) (hne : ¬ name = [])
    (hal : ∀ c ∈ name, isAlphaNum c = true) :
    getShellName ('{' :: (name ++ '}' :: tail)) = (name, name.length + 2) := by
  cases name with
  | nil => exact absurd rfl hne
  | cons c1 n1 =>
    have hc1 : isAlphaNum c1 = true := hal c1 (List.mem_cons_self _ _)
    have hcr1 : ¬ c1 = '}' := alphaNum_ne_rbrace hc1
    cases n1 with
    | nil =>
      by_cases hsp : isShellSpecialVar c1 = true
      · simp [getShellName, hsp]
      · simp [getShellName, hsp, braceScan, hcr1]
    | cons c2 n2 =>
      have hc2 : isAlphaNum c2 = true :=
        hal c2 (List.mem_cons_of_mem _ (List.mem_cons_self _ _))
      have hcond : ¬ (isShellSpecialVar c1 = true ∧ c2 = '}') := by
        rintro ⟨_, h2⟩
        exact alphaNum_ne_rbrace hc2 h2
      have hres : getShellName ('{' :: ((c1 :: c2 :: n2) ++ '}' :: tail)) =
          braceScan ((c1 :: c2 :: n2) ++ '}' :: tail) [] 1 := by
        simp [getShellName, hcond]
      rw [hres, braceScan_spec tail (c1 :: c2 :: n2) [] 1
        (fun c hc => alphaNum_ne_rbrace (hal c hc))
        (by simp only [List.length_cons]; omega)]
      rw [Prod.mk.injEq]
      refine ⟨by simp, by simp only [List.length_cons]; omega⟩

theorem takeWhile_all (p : Char → Bool) (l : List Char) (h : ∀ c ∈ l, p c = true) :
    l.takeWhile p = l := by
  induction l with
  | nil => rfl
  | cons c rest ih =>
    rw [List.takeWhile_cons, if_pos (h c (List.mem_cons_self _ _))]
    rw [ih (fun x hx => h x (List.mem_cons_of_mem _ hx))]

theorem getShellName_bare (c : Char) (cs : List Char)
    (hal : ∀ x ∈ c :: cs, isAlphaNum x = true) (hsp : isShellSpecialVar c = false) :
    getShellName (c :: cs) = (c :: cs, (c :: cs).length) := by
  have hcb : ¬ c = '{' := alphaNum_ne_brace (hal c (List.mem_cons_self _ _))
  have htw : (c :: cs).takeWhile (fun ch => isAlphaNum ch) = c :: cs :=
    takeWhile_all _ _ hal
  simp [getShellName, hcb, hsp, htw]

theorem expandLoop_no_dollar (mapping : List Char → List Char) (pre : List Char)
    (h : ∀ c ∈ pre, ¬ c = '$') :
    ∀ r, expandLoop mapping (pre ++ r) = pre ++ expandLoop mapping r := by
  induction pre with
  | nil => intro r; rfl
  | cons c p ih =>
    intro r
    have hc : ¬ c = '$' := h c (List.mem_cons_self _ _)
    have hstep : expandLoop mapping ((c :: p) ++ r) = c :: expandLoop mapping (p ++ r) := by
      simp [expandLoop, hc]
    rw [hstep, ih (fun x hx => h x (List.mem_cons_of_mem _ hx)) r]
    rfl

theorem expandLoop_brace (mapping : List Char → List Char) (name post : List Char)
    (hne : ¬ name = []) (hal : ∀ c ∈ name, isAlphaNum c = true) :
    expandLoop mapping ('$' :: ('{' :: (name ++ ('}' :: post)))) =
      mapping name ++ expandLoop mapping post := by
  have hgs : getShellName ('{' :: (name ++ '}' :: post)) = (name, name.length + 2) :=
    getShellName_brace name post hne hal
  have hdrop : ('{' :: (name ++ ('}' :: post))).drop (name.length + 2) = post := by
    have hsplit : ('{' :: (name ++ ('}' :: post))) = (('{' :: name) ++ ['}']) ++ post := by
      simp
    rw [hsplit]
    refine List.drop_left' ?_
    simp only [List.length_append, List.length_cons, List.length_nil]
  have hstep : expandLoop mapping ('$' :: ('{' :: (name ++ ('}' :: post)))) =
      (if (getShellName ('{' :: (name ++ '}' :: post))).1 = [] ∧
          0 < (getShellName ('{' :: (name ++ '}' :: post))).2 then []
       else if (getShellName ('{' :: (name ++ '}' :: post))).1 = [] then ['$']
       else mapping (getShellName ('{' :: (name ++ '}' :: post))).1)
        ++ expandLoop mapping
            (('{' :: (name ++ ('}' :: post))).drop
              (getShellName ('{' :: (name ++ '}' :: post))).2) := by
    simp [expandLoop]
  rw [hstep, hgs, hdrop]
  simp [hne]

theorem expandLoop_bare (mapping : List Char → List Char) (c : Char) (cs : List Char)
    (hal : ∀ x ∈ c :: cs, isAlphaNum x = true) (hsp : isShellSpecialVar c = false) :
    expandLoop mapping ('$' :: c :: cs) = mapping (c :: cs) := by
  have hgs : getShellName (c :: cs) = (c :: cs, (c :: cs).length) :=
    getShellName_bare c cs hal hsp
  have hstep : expandLoop mapping ('$' :: c :: cs) =
      (if (getShellName (c :: cs)).1 = [] ∧ 0 < (getShellName (c :: cs)).2 then []
       else if (getShellName (c :: cs)).1 = [] then ['$']
       else mapping (getShellName (c :: cs)).1)
        ++ expandLoop mapping ((c :: cs).drop (getShellName (c :: cs)).2) := by
    simp [expandLoop]
  rw [hstep, hgs]
  have hnil : expandLoop mapping ([] : List Char) = [] := by
    simp [expandLoop]
  simp [hnil]

theorem ExpandEnv_unset_brace (osEnv : String → Option String) (name pre post : String)
    (hgood : goodVarName name) (hpre : ∀ c ∈ pre.data, ¬ c = '$')
    (hunset : osEnv name = none) :
    ExpandEnv osEnv (pre ++ "$\x7b" ++ name ++ "\x7d" ++ post) = pre ++ ExpandEnv osEnv post := by
  have hdata : (pre ++ "$\x7b" ++ name ++ "\x7d" ++ post).data =
      pre.data ++ ('$' :: ('{' :: (name.data ++ ('}' :: post.data)))) := by
    simp [String.data_append]
  have hmap : ((osEnv (String.mk name.data)).getD ("")).data = ([] : List Char) := by
    have heta : String.mk name.data = name := rfl
    rw [heta, hunset]
    rfl
  refine String.ext ?_
  show (expandLoop _ (pre ++ "$\x7b" ++ name ++ "\x7d" ++ post).data) = _
  rw [hdata, expandLoop_no_dollar _ _ hpre _,
    expandLoop_brace _ name.data post.data hgood.1 hgood.2.1, hmap]
  simp [String.data_append, ExpandEnv]

theorem ExpandEnv_unset_bare (osEnv : String → Option String) (name : String)
    (hgood : goodVarName name) (hunset : osEnv name = none) :
    ExpandEnv osEnv ("$" ++ name) = "" := by
  obtain ⟨hne, hal, hsp⟩ := hgood
  refine String.ext ?_
  show (expandLoop _ ("$" ++ name).data) = _
  have hdata : ("$" ++ name).data = '$' :: name.data := by
    simp [String.data_append]
  rw [hdata]
  cases hnd : name.data with
  | nil => exact absurd hnd hne
  | cons c cs =>
    have hsp' : isShellSpecialVar c = false := by
      rw [hnd] at hsp
      simpa using hsp
    have hal' : ∀ x ∈ c :: cs, isAlphaNum x = true := by
      rw [hnd] at hal
      exact hal
    rw [expandLoop_bare _ c cs hal' hsp']
    have heta : String.mk (c :: cs) = name := by
      rw [← hnd]
    rw [heta, hunset]
    rfl

/-! ## Auxiliary lemmas for the claims -/

theorem stopAllLoop_doneClosed (env : Env) (names : List String) :
    ∀ acc : Manager × List (String × String),
      (stopAllLoop env names acc).1.doneClosed = acc.1.doneClosed := by
  induction names with
  | nil => exact fun acc => rfl
  | cons name rest ih =>
    intro acc
    cases htun : acc.1.tunnels.lookup name with
    | none =>
      have hstep : stopAllLoop env (name :: rest) acc = stopAllLoop env rest acc := by
        simp [stopAllLoop, htun]
      rw [hstep]
      exact ih acc
    | some tun =>
      rcases hs : tun.Stop (env.stopOk name) with ⟨tun', err⟩
      cases err with
      | some e =>
        have hstep : stopAllLoop env (name :: rest) acc =
            stopAllLoop env rest
              ({ acc.1 with tunnels := acc.1.tunnels.insert name tun' },
               acc.2 ++ [(name, e)]) := by
          simp [stopAllLoop, htun, hs]
        rw [hstep, ih]
      | none =>
        have hstep : stopAllLoop env (name :: rest) acc =
            stopAllLoop env rest
              ({ acc.1 with tunnels := acc.1.tunnels.insert name tun' }, acc.2) := by
          simp [stopAllLoop, htun, hs]
        rw [hstep, ih]

theorem StopAll_doneClosed (env : Env) (m : Manager) :
    (Manager.StopAll env m).1.doneClosed = m.doneClosed :=
  stopAllLoop_doneClosed env m.tunnels.keys ({ m with tunnelDones := [] }, [])

/-! ## Claims -/

/-- C1: after any `Reconcile(new)` (tunnel stops conforming to the
spec, i.e. succeeding), the set of registered tunnel names (`List()`)
equals the set of names occurring in `new`, and every name present both
before and after stores exactly the `TunnelConfig` that `new` assigns
to it (the `newConfigs` map the source builds from `new`, all fields
compared). -/
theorem reconcile_names_and_configs (env : Env) (m : Manager) (new : Config)
    (hstop : ∀ k, env.stopOk k = true) (hwf : WF m) :
    (∀ n, n ∈ Manager.ListNames (Manager.Reconcile env m new).1 ↔
        n ∈ new.tunnelConfigs.map TunnelConfig.name)
    ∧ (∀ n, ((m.tunnels.lookup n).isSome = true) →
        ((((Manager.Reconcile env m new).1.tunnels.lookup n).isSome = true)) →
        (Manager.Reconcile env m new).1.configs.lookup n =
          (buildNewConfigs new.tunnelConfigs).lookup n) := by
  obtain ⟨rT, rC, _, _, _⟩ := Reconcile_spec env m new hstop ((WF_iff m).mp hwf)
  refine ⟨fun n => ?_, fun n _ _ => rC n⟩
  show n ∈ (Manager.Reconcile env m new).1.tunnels.keys ↔ _
  rw [← AList.mem_keys, ← AList.lookup_isSome]
  exact rT n

/-- Witness for C1 at a manager holding `t1` reconciled to a
configuration holding only `t2`. -/
theorem reconcile_names_and_configs_witness :
    WF mA ∧
      ("t2" ∈ Manager.ListNames (Manager.Reconcile env0 mA conf2).1 ↔
        "t2" ∈ conf2.tunnelConfigs.map TunnelConfig.name) :=
  ⟨by decide,
   (reconcile_names_and_configs env0 mA conf2 (fun _ => rfl) (by decide)).1 ("t2")⟩

/-- C2 (code bug): `Close()` is not idempotent.  The first call on a
manager whose `done` channel is open returns; every second call
reaches `close(m.done)` with the channel already closed, which is a Go
runtime panic (the `none` result of the model).  The spec promises
`Close` is idempotent. -/
theorem close_second_call_panics (env : Env) (m : Manager) (h : m.doneClosed = false) :
    ((Manager.Close env m).isSome = true)
    ∧ (∀ r, Manager.Close env m = some r → Manager.Close env r.1 = none) := by
  constructor
  · simp [Manager.Close, h]
  · intro r hr
    have hc : Manager.Close env m =
        some ((Manager.StopAll env { m with doneClosed := true }).1,
          if (Manager.StopAll env { m with doneClosed := true }).2 = [] then none
          else some ("errors closing manager")) := by
      simp [Manager.Close, h]
    rw [hc] at hr
    injection hr with hr
    have hdc : r.1.doneClosed = true := by
      rw [← hr]
      exact StopAll_doneClosed env { m with doneClosed := true }
    simp [Manager.Close, hdc]

/-- Witness for C2: the fresh manager faults on the second `Close`. -/
theorem close_second_call_panics_witness :
    mgr0.doneClosed = false
    ∧ ((Manager.Close env0 mgr0).isSome = true)
    ∧ Manager.Close env0 ((Manager.Close env0 mgr0).getD (mgr0, none)).1 = none :=
  ⟨rfl, (close_second_call_panics env0 mgr0 rfl).1,
   (close_second_call_panics env0 mgr0 rfl).2
     ((Manager.Close env0 mgr0).getD (mgr0, none)) rfl⟩

/-- C3: the watcher reload leaves the manager exactly unchanged (and
never calls `Reconcile`) whenever `config.Load` fails — on a read
error, a parse error, or a validation error — and calls `Reconcile`
exactly when loading succeeds. -/
theorem reload_failure_preserves_state (readResult : Except String String)
    (parse : String → Except String Config) (osEnv : String → Option String)
    (env : Env) (m : Manager) :
    (∀ e, Load readResult parse osEnv = Except.error e →
      Watcher.reload readResult parse osEnv env m = (m, false))
    ∧ (∀ cfg, Load readResult parse osEnv = Except.ok cfg →
      Watcher.reload readResult parse osEnv env m = ((Manager.Reconcile env m cfg).1, true)) := by
  constructor
  · intro e he
    unfold Watcher.reload
    rw [he]
  · intro cfg hc
    unfold Watcher.reload
    rw [hc]

/-- Witness for C3: a reload whose parsed document fails validation
(empty tunnel list) leaves the manager untouched. -/
theorem reload_failure_preserves_state_witness :
    Load (Except.ok ("x")) parseBad osEnvNone =
        Except.error (LoadError.invalidConfig ValidateError.noTunnels)
    ∧ Watcher.reload (Except.ok ("x")) parseBad osEnvNone env0 mA = (mA, false) :=
  ⟨rfl,
   (reload_failure_preserves_state (Except.ok ("x")) parseBad osEnvNone env0 mA).1
     (LoadError.invalidConfig ValidateError.noTunnels) rfl⟩

/-- C4: `Reconcile` is idempotent (tunnel stops conforming to the
spec): immediately re-running `Reconcile` with the same configuration
performs no remove, no add and no restart (empty action trace) and
returns the manager state unchanged. -/
theorem reconcile_idempotent (env : Env) (m : Manager) (cfg : Config)
    (hstop : ∀ k, env.stopOk k = true) (hwf : WF m) :
    Manager.Reconcile env (Manager.Reconcile env m cfg).1 cfg =
      ((Manager.Reconcile env m cfg).1, []) :=
  Reconcile_idem env m cfg hstop ((WF_iff m).mp hwf)

/-- Witness for C4 on a fresh manager and a two-tunnel configuration. -/
theorem reconcile_idempotent_witness :
    WF mgr0 ∧
      Manager.Reconcile env0 (Manager.Reconcile env0 mgr0 conf0).1 conf0 =
        ((Manager.Reconcile env0 mgr0 conf0).1, []) :=
  ⟨by decide, reconcile_idempotent env0 mgr0 conf0 (fun _ => rfl) (by decide)⟩

/-- C5: `Add(cfg)` on a taken name fails with the name-in-use error and
leaves the manager completely unchanged; on a fresh name it registers
the tunnel (created Stopped) and its config, touches nothing else, and
launches no supervisor. -/
theorem add_semantics (m : Manager) (cfg : TunnelConfig) :
    (((m.tunnels.lookup cfg.name).isSome = true) →
      m.Add cfg = (m, some ("tunnel " ++ cfg.name ++ " already exists")))
    ∧ (m.tunnels.lookup cfg.name = none →
      (m.Add cfg).2 = none
      ∧ (m.Add cfg).1.tunnels.lookup cfg.name =
          some (NewTunnel m.sshConfig cfg.remoteHost cfg.remotePort cfg.localPort)
      ∧ (NewTunnel m.sshConfig cfg.remoteHost cfg.remotePort cfg.localPort).status =
          Status.stopped
      ∧ (m.Add cfg).1.configs.lookup cfg.name = some cfg
      ∧ (∀ n, ¬ n = cfg.name →
          (m.Add cfg).1.tunnels.lookup n = m.tunnels.lookup n
          ∧ (m.Add cfg).1.configs.lookup n = m.configs.lookup n)
      ∧ (m.Add cfg).1.tunnelDones = m.tunnelDones
      ∧ (m.Add cfg).1.sshConfig = m.sshConfig) := by
  constructor
  · intro h
    exact Add_fail m cfg h
  · intro h
    rw [Add_ok m cfg h]
    exact ⟨rfl, AList.lookup_insert _, rfl, AList.lookup_insert _,
      fun n hn => ⟨AList.lookup_insert_ne hn, AList.lookup_insert_ne hn⟩, rfl, rfl⟩

/-- Witness for C5: adding `t1` to the fresh manager succeeds without
starting it, and a second add of the same name fails. -/
theorem add_semantics_witness :
    (mgr0.tunnels.lookup cfgT.name = none ∧ (mgr0.Add cfgT).2 = none)
    ∧ ((mA.tunnels.lookup cfgT.name).isSome = true
       ∧ mA.Add cfgT = (mA, some ("tunnel " ++ cfgT.name ++ " already exists"))) :=
  ⟨⟨by decide, ((add_semantics mgr0 cfgT).2 (by decide)).1⟩,
   ⟨by decide, (add_semantics mA cfgT).1 (by decide)⟩⟩

/-- C6 counterexample: with `t1` already registered,
`Add(cfgT); Remove("t1")` does not restore `List()` — the failed `Add`
leaves the old tunnel in place and the `Remove` then deletes it. -/
theorem add_remove_not_roundtrip :
    cfgT.name ∈ Manager.ListNames mA
    ∧ cfgT.name ∉
        Manager.ListNames (Manager.Remove env0 ((Manager.Add mA cfgT).1) cfgT.name).1 := by
  decide

/-- C6 (amended): when `cfg.Name` is not already registered,
`Add(cfg); Remove(cfg.Name)` restores `List()` to its prior value (the
same set of names). -/
theorem add_remove_roundtrip (env : Env) (m : Manager) (cfg : TunnelConfig)
    (h : m.tunnels.lookup cfg.name = none) :
    ∀ n, n ∈ Manager.ListNames (Manager.Remove env ((m.Add cfg).1) cfg.name).1 ↔
      n ∈ Manager.ListNames m := by
  intro n
  have hlook : ((m.Add cfg).1).tunnels.lookup cfg.name =
      some (NewTunnel m.sshConfig cfg.remoteHost cfg.remotePort cfg.localPort) := by
    rw [Add_ok m cfg h]
    exact AList.lookup_insert _
  have hnotrun : ¬ (NewTunnel m.sshConfig cfg.remoteHost cfg.remotePort cfg.localPort).status =
      Status.running := by
    simp [NewTunnel]
  have hres : (Manager.Remove env ((m.Add cfg).1) cfg.name).1 =
      { (m.Add cfg).1 with
          tunnels := ((m.Add cfg).1).tunnels.erase cfg.name,
          configs := ((m.Add cfg).1).configs.erase cfg.name,
          tunnelDones := eraseS ((m.Add cfg).1).tunnelDones cfg.name } := by
    simp [Manager.Remove, Manager.stopAutoRestartForTunnel, hlook, hnotrun]
  rw [hres]
  show n ∈ (((m.Add cfg).1).tunnels.erase cfg.name).keys ↔ n ∈ m.tunnels.keys
  rw [← AList.mem_keys, AList.mem_erase, ← AList.mem_keys]
  rw [Add_ok m cfg h]
  show n ≠ cfg.name ∧ n ∈ (m.tunnels.insert cfg.name _) ↔ _
  rw [AList.mem_insert]
  constructor
  · rintro ⟨hne, he | hm⟩
    · exact absurd he hne
    · exact (AList.mem_keys).mp hm
  · intro hm
    have hmm : n ∈ m.tunnels := (AList.mem_keys).mpr hm
    refine ⟨fun he => ?_, Or.inr hmm⟩
    rw [AList.lookup_eq_none] at h
    exact h (he ▸ hmm)

/-- Witness for C6's amended theorem: adding and removing `t1` on the
fresh manager restores the (empty) name set. -/
theorem add_remove_roundtrip_witness :
    mgr0.tunnels.lookup cfgT.name = none
    ∧ ("t1" ∈ Manager.ListNames (Manager.Remove env0 ((mgr0.Add cfgT).1) cfgT.name).1 ↔
        "t1" ∈ Manager.ListNames mgr0) :=
  ⟨by decide, add_remove_roundtrip env0 mgr0 cfgT (by decide) ("t1")⟩

/-- C7 counterexample: the claimed equivalence fails on a document with
a valid ssh section and an empty tunnel list (every entry vacuously
satisfies the per-tunnel conditions, yet validation fails), and the
duplicate-localPort failure identifies the offending tunnel by neither
index nor name. -/
theorem validate_iff_counterexample :
    (TunnelEntriesOk confEmpty ∧ ¬ confEmpty.Validate = none)
    ∧ (confDup.Validate = some (ValidateError.duplicateLocalPort 5432)
       ∧ (ValidateError.duplicateLocalPort 5432).identifiesTunnel = false) := by
  refine ⟨⟨?_, by decide⟩, by decide, by decide⟩
  refine ⟨fun t ht => absurd ht (List.not_mem_nil t), by decide, by decide⟩

/-- C7 (amended): validation succeeds iff the ssh section validates,
the tunnel list is non-empty, and every tunnel entry satisfies the
per-entry conditions (name/remoteHost non-empty, ports positive, name
and localPort unique, positive interval when auto-restart is enabled);
and every validation failure identifies the offending tunnel by index
or name except the ssh failure, the empty-list failure, and the
duplicate-localPort failure (which reports the duplicated port
number). -/
theorem validate_characterization (c : Config) :
    (c.Validate = none ↔
      (c.ssh.Validate = none ∧ ¬ c.tunnelConfigs = [] ∧ TunnelEntriesOk c))
    ∧ (∀ e, c.Validate = some e →
        (e.identifiesTunnel = true
         ∨ (∃ msg, e = ValidateError.sshInvalid msg)
         ∨ e = ValidateError.noTunnels
         ∨ (∃ p, e = ValidateError.duplicateLocalPort p))) := by
  refine ⟨Validate_none_iff c, fun e _ => ?_⟩
  cases e <;> simp [ValidateError.identifiesTunnel]

/-- Witness for C7's amended theorem at the duplicate-localPort
document. -/
theorem validate_characterization_witness :
    confDup.Validate = some (ValidateError.duplicateLocalPort 5432)
    ∧ ((ValidateError.duplicateLocalPort 5432).identifiesTunnel = true
       ∨ (∃ msg, ValidateError.duplicateLocalPort 5432 = ValidateError.sshInvalid msg)
       ∨ ValidateError.duplicateLocalPort 5432 = ValidateError.noTunnels
       ∨ (∃ p, ValidateError.duplicateLocalPort (5432 : Int) =
            ValidateError.duplicateLocalPort p)) :=
  ⟨by decide, (validate_characterization confDup).2 _ (by decide)⟩

/-- C8: starting from a fresh manager, after any sequence of `Add`,
`Remove`, `Start`, `Stop`, `Restart`, `StartAll`, `StopAll`,
`Reconcile`, `Close`, the three maps stay consistent: every supervisor
entry (`tunnelDones`) has a registered tunnel, and the key sets of
`tunnels` and `configs` coincide. -/
theorem manager_maps_consistent (env : Env) (ssh : SSHConfig) (calls : List Call) :
    (∀ n ∈ (applyCalls env calls (NewManager ssh)).tunnelDones,
      (((applyCalls env calls (NewManager ssh)).tunnels.lookup n).isSome = true))
    ∧ (∀ n, (((applyCalls env calls (NewManager ssh)).tunnels.lookup n).isSome = true) ↔
        (((applyCalls env calls (NewManager ssh)).configs.lookup n).isSome = true)) := by
  have h := WFl_applyCalls env calls (NewManager ssh) (WFl_NewManager ssh)
  exact ⟨h.2.2.1, fun n => ⟨fun hx => h.1 n hx, fun hx => h.2.1 n hx⟩⟩

/-- C9: `Remove` cancels the auto-restart supervisor before any other
check: if the tunnel is Running and its stop fails, `Remove` returns an
error with the tunnel and its config still registered but the
supervisor already cancelled; and a `Remove` of an unregistered name
still cancels any supervisor entry under that name before returning the
not-found error. -/
theorem remove_not_atomic (env : Env) (m : Manager) (name : String) :
    (∀ tun, m.tunnels.lookup name = some tun → tun.status = Status.running →
      env.stopOk name = false →
      ((Manager.Remove env m name).2.isSome = true)
      ∧ (Manager.Remove env m name).1.tunnels.lookup name = some tun
      ∧ (Manager.Remove env m name).1.configs.lookup name = m.configs.lookup name
      ∧ name ∉ (Manager.Remove env m name).1.tunnelDones)
    ∧ (m.tunnels.lookup name = none →
      ((Manager.Remove env m name).2.isSome = true)
      ∧ (Manager.Remove env m name).1.tunnels = m.tunnels
      ∧ (Manager.Remove env m name).1.configs = m.configs
      ∧ (Manager.Remove env m name).1.tunnelDones = eraseS m.tunnelDones name) := by
  constructor
  · intro tun hl hrun hstop
    have hstopres : tun.Stop (env.stopOk name) = (tun, some ("StopFailed")) := by
      simp [Tunnel.Stop, hrun, hstop]
    have hres : Manager.Remove env m name =
        ({ m with tunnels := m.tunnels.insert name tun,
                  tunnelDones := eraseS m.tunnelDones name },
         some ("failed to stop tunnel " ++ name ++ ": " ++ "StopFailed")) := by
      simp [Manager.Remove, Manager.stopAutoRestartForTunnel, hl, hrun, hstopres]
    rw [hres]
    refine ⟨rfl, AList.lookup_insert _, rfl, fun hmem => ?_⟩
    exact ((mem_eraseS _ _ _).mp hmem).2 rfl
  · intro hl
    have hres : Manager.Remove env m name =
        ({ m with tunnelDones := eraseS m.tunnelDones name },
         some ("tunnel " ++ name ++ " not found")) := by
      simp [Manager.Remove, Manager.stopAutoRestartForTunnel, hl]
    rw [hres]
    exact ⟨rfl, rfl, rfl, rfl⟩

/-- Witness for C9 at a manager with a Running `t1`, a live supervisor,
and an environment whose stop fails. -/
theorem remove_not_atomic_witness :
    (mR.tunnels.lookup ("t1") = some tunR ∧ tunR.status = Status.running
        ∧ envSF.stopOk ("t1") = false)
    ∧ (((Manager.Remove envSF mR ("t1")).2.isSome = true)
       ∧ (Manager.Remove envSF mR ("t1")).1.tunnels.lookup ("t1") = some tunR
       ∧ (Manager.Remove envSF mR ("t1")).1.configs.lookup ("t1") = mR.configs.lookup ("t1")
       ∧ "t1" ∉ (Manager.Remove envSF mR ("t1")).1.tunnelDones) :=
  ⟨⟨by decide, by decide, rfl⟩,
   (remove_not_atomic envSF mR ("t1")).1 tunR (by decide) (by decide) rfl⟩

/-- C10: `Load` expands environment variables in the raw text before
parsing (`os.ExpandEnv`); an unset variable — `${VAR}` in any
dollar-free leading context, or a bare `$VAR` — is replaced by the empty
string: it is neither kept literally nor able to fail the substitution
step, so it can only be rejected later by validation. -/
theorem expand_unset_to_empty (osEnv : String → Option String) (name pre post : String)
    (hgood : goodVarName name) (hpre : ∀ c ∈ pre.data, ¬ c = '$')
    (hunset : osEnv name = none) :
    ExpandEnv osEnv (pre ++ "$\x7b" ++ name ++ "\x7d" ++ post) = pre ++ ExpandEnv osEnv post
    ∧ ExpandEnv osEnv ("$" ++ name) = "" :=
  ⟨ExpandEnv_unset_brace osEnv name pre post hgood hpre hunset,
   ExpandEnv_unset_bare osEnv name hgood hunset⟩

/-- Witness for C10: `${HOME}` and `$HOME` vanish under the empty OS
environment. -/
theorem expand_unset_to_empty_witness :
    goodVarName ("HOME")
    ∧ (ExpandEnv osEnvNone ("host: " ++ "$\x7b" ++ "HOME" ++ "\x7d" ++ "!") =
        "host: " ++ ExpandEnv osEnvNone ("!")
       ∧ ExpandEnv osEnvNone ("$" ++ "HOME") = "") :=
  ⟨by decide,
   expand_unset_to_empty osEnvNone ("HOME") "host: " "!" (by decide) (by decide) rfl⟩

end Conduit

